import Mathlib

/-!
Verification development for the ChessUCI proxy server (src/chess.py).

The relevant parts of the program are shallowly embedded as executable
Lean definitions:

* Python strings are modelled as `List Char` (`PyStr`); the Python string
  operations used by the source (`split`, `join`, `strip`, `startswith`,
  substring membership) are defined with Python semantics.
* The option-rewrite pump (`process_client_commands`, lines 375-406) and
  the mediated UCI handshake (`process_uci_command`, lines 351-373) are
  embedded as pure functions from the incoming data to the list of strings
  written to the engine.
* The admission gate (`check_connection_attempts`, lines 164-204) is
  embedded as a state-passing function over an association-list model of
  the `connection_attempts` dict.
* The subnet planner (`generate_subnets_to_avoid`, lines 63-105) is
  embedded over a CIDR type `Cidr` (base address and prefix length, both
  naturals), with `ipaddress.address_exclude` reproduced including its
  ValueError behaviour (keep the range unchanged).
* The liveness machinery of `client_handler` (lines 293-304) is embedded
  as a step function on a small session state.
-/

namespace ChessUCI

/-- Python strings are sequences of characters. -/
abbrev PyStr := List Char

/-- Characters stripped by Python `str.strip()`: the CPython whitespace
class (bidirectional classes WS, B and S plus category Zs), that is
U+0009 to U+000D, U+001C to U+001F, U+0020, U+0085 (NEL), U+00A0
(no-break space), U+1680, U+2000 to U+200A, U+2028, U+2029, U+202F,
U+205F and U+3000. -/
def isPySpace (c : Char) : Bool :=
  let n := c.toNat
  (decide (0x09 ≤ n) && decide (n ≤ 0x0D)) ||
    (decide (0x1C ≤ n) && decide (n ≤ 0x20)) ||
    decide (n = 0x85) || decide (n = 0xA0) || decide (n = 0x1680) ||
    (decide (0x2000 ≤ n) && decide (n ≤ 0x200A)) ||
    decide (n = 0x2028) || decide (n = 0x2029) ||
    decide (n = 0x202F) || decide (n = 0x205F) || decide (n = 0x3000)

/-- Python `s.split(sep)` for a one-character separator: split at every
occurrence, keeping empty fragments; the empty string yields one empty
fragment. -/
def splitChar (sep : Char) : PyStr → List PyStr
  | [] => [[]]
  | c :: cs =>
    let r := splitChar sep cs
    if c = sep then [] :: r
    else
      match r with
      | [] => [[c]]
      | t :: ts => (c :: t) :: ts

/-- Python `sep.join(parts)` for a one-character separator. -/
def pyJoin (sep : Char) : List PyStr → PyStr
  | [] => []
  | [x] => x
  | x :: y :: xs => x ++ sep :: pyJoin sep (y :: xs)

/-- Python `s.strip()`: drop leading and trailing whitespace. -/
def pyStrip (s : PyStr) : PyStr :=
  ((s.dropWhile isPySpace).reverse.dropWhile isPySpace).reverse

/-- Python `s.startswith(pat)`: `startsWith pat s` is true when `pat` is a
prefix of `s`. -/
def startsWith : PyStr → PyStr → Bool
  | [], _ => true
  | _ :: _, [] => false
  | a :: as, b :: bs => a == b && startsWith as bs

/-- Python `needle in hay` for strings: substring membership. -/
def containsSeq (needle : PyStr) : PyStr → Bool
  | [] => startsWith needle []
  | c :: rest => startsWith needle (c :: rest) || containsSeq needle rest

/-- Python dict lookup on an association-list model (first match). -/
def lookupPy (m : List (PyStr × PyStr)) (k : PyStr) : Option PyStr :=
  (m.find? (fun e => decide (e.1 = k))).map (fun e => e.2)

/-- List concatenation of the images of `f`, mirroring nested loops that
emit zero or more items per element. -/
def listFlatMap (f : α → List β) : List α → List β
  | [] => []
  | x :: xs => f x ++ listFlatMap f xs

/-! ## Embedding of the pump and handshake (src/chess.py lines 339-421) -/

/-- The string written to the engine by `process_command` (line 341):
`f"{command}\n"`. -/
def processCommandWrite (c : PyStr) : PyStr := c ++ ['\n']

/-- The rewritten setoption line `f"setoption name {n} value {v}"`
(lines 396 and 399). -/
def setoptionLine (n v : PyStr) : PyStr :=
  ("setoption name ".data ++ n) ++ (" value ".data ++ v)

/-- Embedding of the per-command dispatch of `process_client_commands`
(src/chess.py lines 387-406): given the engine-local custom-variable map
`ec` (`ENGINES[engine_name]["custom_variables"]`), the global map `gc`
(`CUSTOM_VARIABLES`), and one stripped non-empty command, return the
command that is passed to `process_command`. -/
def rewriteCommand (ec gc : List (PyStr × PyStr)) (command : PyStr) : PyStr :=
  if startsWith "setoption name".data command then
    match splitChar ' ' command with
    | _p0 :: p1 :: optionName :: p3 :: _p4 :: _rest =>
      if p1 = "name".data ∧ p3 = "value".data then
        match lookupPy ec optionName with
        | some v =>
          if v = "override".data then command
          else setoptionLine optionName v
        | none =>
          match lookupPy gc optionName with
          | some v => setoptionLine optionName v
          | none => command
      else command
    | _ => command
  else command

/-- Embedding of one iteration of the `process_client_commands` read loop
(src/chess.py lines 377-406): `data` is the decoded bytes returned by one
`reader.readline()`; the result is the list of strings written to the
engine stdin for it. -/
def handleClientData (ec gc : List (PyStr × PyStr)) (data : PyStr) : List PyStr :=
  let clientData := pyStrip data
  let commands := splitChar '\n' clientData
  listFlatMap
    (fun c =>
      let command := pyStrip c
      if command = [] then []
      else [processCommandWrite (rewriteCommand ec gc command)])
    commands

/-- Embedding of the writes issued by `process_uci_command` before its
relay loop (src/chess.py lines 352-356): `uci` followed by one
`setoption` push per entry of the engine-local custom-variable map, in
iteration (insertion) order, accumulated exactly as the `for` loop does. -/
def handshakeSends (ec : List (PyStr × PyStr)) : List PyStr :=
  ec.foldl (fun acc e => acc ++ [processCommandWrite (setoptionLine e.1 e.2)])
    [processCommandWrite "uci".data]

/-- Modelled from the spec: the merged option policy
`(engineCustom ∪ globalCustom)` with engine-local entries taking
precedence (spec section 3, `policy`). -/
def specMergedPolicy (ec gc : List (PyStr × PyStr)) : List (PyStr × PyStr) :=
  ec ++ gc.filter (fun e => (lookupPy ec e.1).isNone)

/-- Modelled from the spec: the handshake pushes claimed by the spec
(section 4.D step 2): `uci`, then one `setoption` per merged-policy pair
whose value is not the sentinel `override`. -/
def claimedHandshakeSends (ec gc : List (PyStr × PyStr)) : List PyStr :=
  processCommandWrite "uci".data ::
    ((specMergedPolicy ec gc).filter
        (fun e => !(decide (e.2 = "override".data)))).map
      (fun e => processCommandWrite (setoptionLine e.1 e.2))

/-- Modelled from the spec: the option-rewrite table of spec section 4.D
(property P4), as a function of the parsed option name. -/
def specOptionRewrite (ec gc : List (PyStr × PyStr)) (n command : PyStr) : PyStr :=
  match lookupPy ec n with
  | some v => if v = "override".data then command else setoptionLine n v
  | none =>
    match lookupPy gc n with
    | some v => setoptionLine n v
    | none => command

/-! ## Embedding of the session I/O ordering (src/chess.py lines 351-422) -/

/-- Events observable at the engine and client boundaries of one session:
writes to the engine stdin initiated by the server itself (`uci` and the
handshake `setoption` pushes), writes to the engine stdin forwarded from
the client, and lines read from the engine stdout. -/
inductive SessionEv where
  | serverWrite (s : PyStr)
  | clientWrite (s : PyStr)
  | engineLine (s : PyStr)
deriving DecidableEq

/-- The test `"uciok" in data.decode().strip()` of src/chess.py line 370. -/
def hasUciok (l : PyStr) : Bool := containsSeq "uciok".data (pyStrip l)

/-- Embedding of the relay loop of `process_uci_command` (lines 358-371):
engine lines are relayed in order until one containing `uciok` (that line
included) or until engine EOF (`if not data: break`). -/
def handshakeRelay : List PyStr → List SessionEv
  | [] => []
  | l :: ls => SessionEv.engineLine l :: (if hasUciok l then [] else handshakeRelay ls)

/-- The engine stdout lines left unconsumed by the handshake relay; these
are what `process_engine_responses` (lines 408-420) later reads. -/
def handshakeRest : List PyStr → List PyStr
  | [] => []
  | l :: ls => if hasUciok l then ls else handshakeRest ls

/-- An arbitrary cooperative interleaving of the two pump directions run
by `asyncio.gather` (line 422), selected by a boolean schedule. -/
def mergeEv : List Bool → List SessionEv → List SessionEv → List SessionEv
  | [], xs, ys => xs ++ ys
  | _ :: _, [], ys => ys
  | _ :: _, x :: xs, [] => x :: xs
  | b :: sch, x :: xs, y :: ys =>
    if b then x :: mergeEv sch xs (y :: ys) else y :: mergeEv sch (x :: xs) ys

/-- Embedding of the sequential structure of `client_handler` after engine
spawn (lines 351-422): the handshake writes and its relay loop complete
first (`await process_uci_command()`, line 373), then the two pumps run
concurrently under `asyncio.gather`, in an arbitrary interleaving. -/
def sessionTrace (ec gc : List (PyStr × PyStr))
    (engineLines clientLines : List PyStr) (sched : List Bool) : List SessionEv :=
  (handshakeSends ec).map SessionEv.serverWrite
    ++ handshakeRelay engineLines
    ++ mergeEv sched
        ((listFlatMap (handleClientData ec gc) clientLines).map SessionEv.clientWrite)
        ((handshakeRest engineLines).map SessionEv.engineLine)

/-- Scan a trace: `true` when no client-forwarded write to the engine
stdin occurs before an engine line containing `uciok`. -/
def okTrace : List SessionEv → Bool
  | [] => true
  | SessionEv.clientWrite _ :: _ => false
  | SessionEv.engineLine l :: rest => hasUciok l || okTrace rest
  | SessionEv.serverWrite _ :: rest => okTrace rest

/-! ## Embedding of the liveness state (src/chess.py lines 293-304) -/

/-- Events relevant to the inactivity machinery: a line observed in either
pump at a given time, and a wake-up of `check_inactivity`. -/
inductive LiveEvent where
  | pumpLine (t : Nat)
  | inactivityWake (t : Nat)
deriving DecidableEq

/-- The per-session liveness state: `last_activity_time` (line 293) and
whether the inactivity detector has closed the client writer. -/
structure LiveState where
  lastActivity : Nat
  closed : Bool
deriving DecidableEq

/-- Embedding of the effect of each event on the liveness state. The pump
coroutines `process_client_commands` and `process_engine_responses`
(lines 375-421) contain no assignment to `last_activity_time`, so a line
observed in either direction leaves the state unchanged; a wake-up of
`check_inactivity` (lines 295-302) closes the writer when
`time.time() - last_activity_time > 900`. -/
def liveStep (st : LiveState) : LiveEvent → LiveState
  | LiveEvent.pumpLine _ => st
  | LiveEvent.inactivityWake t =>
    if t - st.lastActivity > 900 then ⟨st.lastActivity, true⟩ else st

/-- Run a session from an initial liveness state through a list of events. -/
def runLive (init : LiveState) (evs : List LiveEvent) : LiveState :=
  evs.foldl liveStep init

/-! ## CIDR arithmetic and the subnet planner (src/chess.py lines 63-105) -/

/-- An IPv4 network: base address and prefix length, as naturals. -/
structure Cidr where
  base : Nat
  len : Nat
deriving DecidableEq

/-- The number of addresses of a network: `2 ^ (32 - len)`. -/
def csize (c : Cidr) : Nat := 2 ^ (32 - c.len)

/-- A well-formed IPv4 network: prefix length at most 32, block contained
in the 32-bit space, base aligned to the block size (what
`ipaddress.ip_network` with `strict=True` accepts). -/
def cvalid (c : Cidr) : Prop :=
  c.len ≤ 32 ∧ c.base + csize c ≤ 2 ^ 32 ∧ csize c ∣ c.base

instance (c : Cidr) : Decidable (cvalid c) := by
  unfold cvalid; exact inferInstance

/-- Address membership in a network, as an interval test. -/
def memB (x : Nat) (c : Cidr) : Bool :=
  decide (c.base ≤ x) && decide (x < c.base + csize c)

/-- Python `a.subnet_of(b)`: interval containment of network and
broadcast addresses. -/
def subB (a b : Cidr) : Bool :=
  decide (b.base ≤ a.base) && decide (a.base + csize a ≤ b.base + csize b)

/-- The lower half produced by `ipaddress` `subnets()`. -/
def lowerHalf (c : Cidr) : Cidr := ⟨c.base, c.len + 1⟩

/-- The upper half produced by `ipaddress` `subnets()`. -/
def upperHalf (c : Cidr) : Cidr := ⟨c.base + 2 ^ (32 - (c.len + 1)), c.len + 1⟩

/-- Embedding of the descent loop of `ipaddress.address_exclude`: walk
from `r` toward `a`, at each level emitting the sibling half that does not
contain `a`. The fuel bounds the prefix-length descent (at most 32). -/
def addressExcludeAux : Nat → Cidr → Cidr → List Cidr
  | 0, _, _ => []
  | fuel + 1, r, a =>
    let s1 := lowerHalf r
    let s2 := upperHalf r
    if a = s1 then [s2]
    else if a = s2 then [s1]
    else if subB a s1 then s2 :: addressExcludeAux fuel s1 a
    else if subB a s2 then s1 :: addressExcludeAux fuel s2 a
    else []

/-- Python `r.address_exclude(a)` under the precondition `a.subnet_of(r)`
(the caller checks it): the minimal CIDR partition of `r` minus `a`,
empty when `a == r`. -/
def address_exclude (r a : Cidr) : List Cidr :=
  if a = r then [] else addressExcludeAux 32 r a

/-- Embedding of the try/except around `address_exclude` in
`generate_subnets_to_avoid` (src/chess.py lines 95-100): when
`a.subnet_of(r)` fails, `address_exclude` raises ValueError and the code
keeps `r` unchanged. -/
def excludeStep (r a : Cidr) : List Cidr :=
  if subB a r then address_exclude r a else [r]

/-- The thirteen fixed public ranges of src/chess.py lines 69-83. -/
def publicRanges : List Cidr :=
  [⟨0x01000000, 8⟩, ⟨0x02000000, 7⟩, ⟨0x04000000, 6⟩, ⟨0x08000000, 7⟩,
   ⟨0x0B000000, 8⟩, ⟨0x0C000000, 6⟩, ⟨0x10000000, 4⟩, ⟨0x20000000, 3⟩,
   ⟨0x40000000, 2⟩, ⟨0x80000000, 2⟩, ⟨0xC0000000, 9⟩, ⟨0xD0000000, 4⟩,
   ⟨0xE0000000, 3⟩]

/-- The inner double loop of `generate_subnets_to_avoid` (lines 89-102):
fold the avoid list over the current list of ranges, subtracting each
avoid element from every current range. -/
def applyAvoidList (avoid : List Cidr) (ranges : List Cidr) : List Cidr :=
  avoid.foldl (fun cur a => listFlatMap (fun r => excludeStep r a) cur) ranges

/-- Embedding of `generate_subnets_to_avoid` (src/chess.py lines 63-105):
single addresses become `/32` networks, the avoid lists are concatenated
(addresses first), and each public range is reduced independently. -/
def generate_subnets_to_avoid (ips : List Nat) (subnets : List Cidr) : List Cidr :=
  listFlatMap
    (fun p => applyAvoidList (ips.map (fun ip => Cidr.mk ip 32) ++ subnets) [p])
    publicRanges

/-- Whether an address is covered by some network of a list. -/
def coveredBy (x : Nat) (l : List Cidr) : Bool := l.any (fun c => memB x c)

/-- Pairwise interval disjointness of a list of networks. -/
def disjB (a b : Cidr) : Bool :=
  decide (a.base + csize a ≤ b.base) || decide (b.base + csize b ≤ a.base)

/-- Every pair of distinct positions of the list holds disjoint networks. -/
def allPairsDisjoint : List Cidr → Bool
  | [] => true
  | a :: rest => rest.all (fun b => disjB a b) && allPairsDisjoint rest

/-- No avoid element strictly contains any of the thirteen public ranges. -/
def noStrictSwallow (avoid : List Cidr) : Bool :=
  avoid.all (fun a => publicRanges.all (fun p => !subB p a || decide (p = a)))

/-- No current range is a proper or improper subnet of a pending avoid
element in a way that would make the ValueError fallback of
`generate_subnets_to_avoid` lose addresses: the forbidden situation is a
current range strictly contained in an avoid element. -/
def noSwallowP (avoid cur : List Cidr) : Prop :=
  ∀ a ∈ avoid, ∀ c ∈ cur, ¬ (subB c a = true ∧ c ≠ a)

/-! ## Embedding of the admission gate (src/chess.py lines 164-204) -/

/-- The configuration fields consulted by admission control. -/
structure Config where
  enableTrustedSources : Bool
  trustedSources : List Nat
  trustedSubnets : List Cidr
  connectionAttemptPeriod : Nat
  maxConnectionAttempts : Nat
  enableFirewallIpBlocking : Bool

/-- The trusted-peer test used both by `check_connection_attempts`
(lines 165-169) and by `client_handler` (lines 281-285, 307-311): exact
membership in `trusted_sources` or coverage by some trusted subnet. -/
def isTrusted (cfg : Config) (ip : Nat) : Bool :=
  cfg.trustedSources.contains ip || cfg.trustedSubnets.any (fun s => memB ip s)

/-- The `connection_attempts` dict: peer address to its timestamp list. -/
abbrev AttemptMap := List (Nat × List Nat)

/-- Python `attempts[-1]` on the recorded (always non-empty) lists. -/
def lastTs (l : List Nat) : Nat := l.getLastD 0

/-- The dict comprehension of lines 175-176: keep entries whose last
timestamp is within the attempt period. -/
def purgeExpired (now period : Nat) (m : AttemptMap) : AttemptMap :=
  m.filter (fun e => decide (now - lastTs e.2 ≤ period))

/-- Lookup of an entry in the attempts map. -/
def lookupTs (m : AttemptMap) (ip : Nat) : Option (List Nat) :=
  (m.find? (fun e => decide (e.1 = ip))).map (fun e => e.2)

/-- Python dict assignment: update in place when the key exists, append
otherwise (insertion order preserved). -/
def mapInsert (m : AttemptMap) (ip : Nat) (v : List Nat) : AttemptMap :=
  if (m.find? (fun e => decide (e.1 = ip))).isSome then
    m.map (fun e => if e.1 = ip then (ip, v) else e)
  else m ++ [(ip, v)]

/-- Python `connection_attempts.pop(client_ip, None)`. -/
def mapRemove (m : AttemptMap) (ip : Nat) : AttemptMap :=
  m.filter (fun e => !(decide (e.1 = ip)))

/-- The outcome of one admission check: the new attempts map, whether the
peer was classified as blocked, and the firewall block request issued
(some ip) when blocking is enabled (lines 190-204). -/
structure CheckResult where
  attempts : AttemptMap
  blocked : Bool
  firewallRequest : Option Nat
deriving DecidableEq

/-- Embedding of `check_connection_attempts` (src/chess.py lines
164-204) as a state-passing function of the attempts map, the peer and
the current time. -/
def check_connection_attempts (cfg : Config) (m : AttemptMap) (ip : Nat)
    (now : Nat) : CheckResult :=
  if isTrusted cfg ip then ⟨m, false, none⟩
  else
    let m1 := purgeExpired now cfg.connectionAttemptPeriod m
    let cur := (lookupTs m1 ip).getD [] ++ [now]
    let m2 := mapInsert m1 ip cur
    if cur.length > cfg.maxConnectionAttempts then
      ⟨mapRemove m2 ip, true,
        if cfg.enableFirewallIpBlocking then some ip else none⟩
    else ⟨m2, false, none⟩

/-- Run a sequence of admission checks for one peer, keeping the map. -/
def runChecksMap (cfg : Config) (ip : Nat) : AttemptMap → List Nat → AttemptMap
  | m, [] => m
  | m, t :: ts => runChecksMap cfg ip (check_connection_attempts cfg m ip t).attempts ts

/-- Adjacent-pairs test on a list of times. -/
def adjAllB (r : Nat → Nat → Bool) : List Nat → Bool
  | [] => true
  | [_] => true
  | a :: b :: rest => r a b && adjAllB r (b :: rest)

/-! ## Embedding of the admission flow of `client_handler`
(src/chess.py lines 274-321) -/

/-- Where `client_handler` leaves a connection before the engine spawn:
closed by the first, flag-gated trust check (lines 279-291); closed by
the second, unconditional trust check (lines 306-320); or admitted to the
session body (line 322 onward). -/
inductive HandlerOutcome where
  | closedAtFirstCheck
  | closedAtSecondCheck
  | served
deriving DecidableEq

/-- Embedding of the admission control flow of `client_handler`: the
first check runs only when `enable_trusted_sources` is set; the second
check (after the inactivity task is launched) runs unconditionally. -/
def clientHandlerAdmission (cfg : Config) (ip : Nat) : HandlerOutcome :=
  if cfg.enableTrustedSources && !isTrusted cfg ip then
    HandlerOutcome.closedAtFirstCheck
  else if !isTrusted cfg ip then HandlerOutcome.closedAtSecondCheck
  else HandlerOutcome.served

/-- The head of a string is not whitespace (vacuously true for the empty
string); applied to `s.reverse` it says the last character is not
whitespace. -/
def headNotWs : PyStr → Bool
  | [] => true
  | ch :: _ => !isPySpace ch

/-- The guard of the rewrite path of `process_client_commands` (lines
387-389): the command starts with `setoption name`, splits into at least
five space-separated parts, and has tokens `name` and `value` at
positions 1 and 3. -/
def isSetoptionMatch (c : PyStr) : Bool :=
  startsWith "setoption name".data c &&
    (match splitChar ' ' c with
     | _ :: p1 :: _ :: p3 :: _ :: _ =>
       decide (p1 = "name".data) && decide (p3 = "value".data)
     | _ => false)

/-! ## Helper lemmas on the string embedding -/

lemma foldl_append_singleton {α β : Type} (g : α → β) :
    ∀ (l : List α) (acc : List β),
      l.foldl (fun a e => a ++ [g e]) acc = acc ++ l.map g := by
  intro l
  induction l with
  | nil => intro acc; simp
  | cons x xs ih => intro acc; simp [List.foldl_cons, ih, List.append_assoc]

lemma startsWith_self_app (p q : PyStr) : startsWith p (p ++ q) = true := by
  induction p with
  | nil => rfl
  | cons a p ih => simp [startsWith, ih]

lemma splitChar_ne_nil (sep : Char) (s : PyStr) : splitChar sep s ≠ [] := by
  cases s with
  | nil => simp [splitChar]
  | cons c cs =>
    simp only [splitChar]
    split
    · simp
    · split <;> simp

lemma pyJoin_splitChar (sep : Char) (s : PyStr) :
    pyJoin sep (splitChar sep s) = s := by
  induction s with
  | nil => rfl
  | cons c cs ih =>
    simp only [splitChar]
    by_cases hc : c = sep
    · subst hc
      simp only [if_pos rfl]
      rcases hr : splitChar c cs with _ | ⟨t, ts⟩
      · exact absurd hr (splitChar_ne_nil c cs)
      · rw [hr] at ih
        simp [pyJoin, ih]
    · simp only [if_neg hc]
      rcases hr : splitChar sep cs with _ | ⟨t, ts⟩
      · exact absurd hr (splitChar_ne_nil sep cs)
      · rw [hr] at ih
        cases ts with
        | nil => simp_all [pyJoin]
        | cons u us => simp_all [pyJoin]

lemma splitChar_no_sep (sep : Char) (s : PyStr) (h : ∀ ch ∈ s, ch ≠ sep) :
    splitChar sep s = [s] := by
  induction s with
  | nil => rfl
  | cons c cs ih =>
    have hc : ¬ c = sep := h c (by simp)
    have ih' := ih (fun ch hm => h ch (by simp [hm]))
    simp [splitChar, hc, ih']

lemma dropWhile_of_headNotWs (c : PyStr) (h : headNotWs c = true) :
    c.dropWhile isPySpace = c := by
  cases c with
  | nil => rfl
  | cons ch t =>
    simp only [headNotWs, Bool.not_eq_true'] at h
    simp [List.dropWhile_cons, h]

lemma pyStrip_clean (c : PyStr) (h1 : headNotWs c = true)
    (h2 : headNotWs c.reverse = true) : pyStrip c = c := by
  unfold pyStrip
  rw [dropWhile_of_headNotWs c h1, dropWhile_of_headNotWs c.reverse h2,
    List.reverse_reverse]

lemma pyStrip_append_nl (c : PyStr) (h1 : headNotWs c = true)
    (h2 : headNotWs c.reverse = true) : pyStrip (c ++ ['\n']) = c := by
  unfold pyStrip
  cases c with
  | nil => rfl
  | cons ch t =>
    have hch : isPySpace ch = false := by
      simpa [headNotWs, Bool.not_eq_true'] using h1
    rw [List.cons_append, List.dropWhile_cons]
    simp only [hch, Bool.false_eq_true, if_false]
    rw [show (ch :: (t ++ ['\n'])) = (ch :: t) ++ ['\n'] from rfl,
      List.reverse_append]
    rw [show (['\n'] : List Char).reverse = ['\n'] from rfl,
      List.singleton_append, List.dropWhile_cons]
    simp only [show isPySpace '\n' = true from by decide, if_true]
    rw [dropWhile_of_headNotWs _ h2, List.reverse_reverse]

lemma rewriteCommand_of_not_match (ec gc : List (PyStr × PyStr)) (c : PyStr)
    (h : isSetoptionMatch c = false) : rewriteCommand ec gc c = c := by
  unfold isSetoptionMatch at h
  unfold rewriteCommand
  cases hs : startsWith "setoption name".data c with
  | false => simp
  | true =>
    rw [hs] at h
    simp only [Bool.true_and] at h
    simp only [if_pos rfl]
    rcases hsp : splitChar ' ' c with _ | ⟨p0, _ | ⟨p1, _ | ⟨p2, _ | ⟨p3, _ | ⟨p4, rest⟩⟩⟩⟩⟩ <;>
      rw [hsp] at h <;> simp_all

/-! ## Helper lemmas on the session trace -/

lemma okTrace_serverWrites (l : List PyStr) (rest : List SessionEv) :
    okTrace (l.map SessionEv.serverWrite ++ rest) = okTrace rest := by
  induction l with
  | nil => rfl
  | cons x xs ih => simpa [okTrace] using ih

lemma okTrace_relay (engineLines : List PyStr) (rest : List SessionEv)
    (h : engineLines.any hasUciok = true) :
    okTrace (handshakeRelay engineLines ++ rest) = true := by
  induction engineLines with
  | nil => simp at h
  | cons l ls ih =>
    rcases List.any_eq_true.mp h with ⟨x, hx, hux⟩
    by_cases hl : hasUciok l = true
    · simp [handshakeRelay, okTrace, hl]
    · rcases List.mem_cons.mp hx with hx | hx
      · subst hx; exact absurd hux hl
      · have hany : ls.any hasUciok = true := List.any_eq_true.mpr ⟨x, hx, hux⟩
        simp [handshakeRelay, hl, okTrace, ih hany]

/-! ## Helper lemmas on the admission gate state -/

lemma lastTs_concat (l : List Nat) (x : Nat) : lastTs (l ++ [x]) = x := by
  simp [lastTs]

lemma lastTs_mem : ∀ {l : List Nat}, l ≠ [] → lastTs l ∈ l := by
  intro l
  induction l with
  | nil => intro h; exact absurd rfl h
  | cons x rest ih =>
    intro _
    cases rest with
    | nil => simp [lastTs]
    | cons y t =>
      have h2 := ih (by simp)
      have he : lastTs (x :: y :: t) = lastTs (y :: t) := by
        simp [lastTs, List.getLastD_cons]
      rw [he]
      exact List.mem_cons_of_mem x h2

lemma mem_mapInsert (m : AttemptMap) (ip : Nat) (v : List Nat) :
    ∀ e ∈ mapInsert m ip v, e = (ip, v) ∨ e ∈ m := by
  intro e he
  unfold mapInsert at he
  split at he
  · rcases List.mem_map.mp he with ⟨x, hx, hfx⟩
    by_cases hxip : x.1 = ip
    · left; rw [← hfx]; simp [hxip]
    · right; rw [← hfx]; simpa [hxip] using hx
  · rcases List.mem_append.mp he with hm | hm
    · right; exact hm
    · left; simpa using hm

lemma lookupTs_some_mem {m : AttemptMap} {ip : Nat} {l : List Nat}
    (h : lookupTs m ip = some l) : ∃ e, e ∈ m ∧ e.1 = ip ∧ e.2 = l := by
  unfold lookupTs at h
  rcases hf : m.find? (fun e => decide (e.1 = ip)) with _ | e
  · rw [hf] at h; simp at h
  · rw [hf] at h
    simp only [Option.map_some'] at h
    refine ⟨e, List.mem_of_find?_eq_some hf, ?_, by injection h⟩
    have := List.find?_some hf
    exact of_decide_eq_true this

lemma lookupTs_none_no_key {m : AttemptMap} {ip : Nat}
    (h : lookupTs m ip = none) : ∀ e ∈ m, e.1 ≠ ip := by
  intro e he
  unfold lookupTs at h
  rcases hf : m.find? (fun e => decide (e.1 = ip)) with _ | e'
  · have := List.find?_eq_none.mp hf e he
    simpa using this
  · rw [hf] at h; simp at h

lemma lookupTs_eq_none_of_no_key {m : AttemptMap} {ip : Nat}
    (h : ∀ e ∈ m, e.1 ≠ ip) : lookupTs m ip = none := by
  unfold lookupTs
  rw [List.find?_eq_none.mpr]
  · rfl
  · intro e he
    simpa using h e he

lemma lookupTs_purge_none {now per : Nat} {m : AttemptMap} {ip : Nat}
    (h : lookupTs m ip = none) : lookupTs (purgeExpired now per m) ip = none := by
  apply lookupTs_eq_none_of_no_key
  intro e he
  exact lookupTs_none_no_key h e (List.mem_filter.mp he).1

lemma lookupTs_purge_keep {now per : Nat} {m : AttemptMap} {ip : Nat} {l : List Nat}
    (h : lookupTs m ip = some l) (hfresh : now - lastTs l ≤ per) :
    lookupTs (purgeExpired now per m) ip = some l := by
  unfold lookupTs at h ⊢
  unfold purgeExpired
  induction m with
  | nil => simp at h
  | cons e rest ih =>
    by_cases hk : e.1 = ip
    · rw [List.find?_cons_of_pos _ (by simpa using hk)] at h
      simp only [Option.map_some'] at h
      have hl : e.2 = l := by injection h
      have hkeepb : (decide (now - lastTs e.2 ≤ per)) = true := by
        rw [hl]; exact decide_eq_true hfresh
      simp only [List.filter_cons, hkeepb, if_true]
      rw [List.find?_cons_of_pos _ (by simpa using hk)]
      simp [hl]
    · rw [List.find?_cons_of_neg _ (by simpa using hk)] at h
      by_cases hkeep : (decide (now - lastTs e.2 ≤ per)) = true
      · simp only [List.filter_cons, hkeep, if_true]
        rw [List.find?_cons_of_neg _ (by simpa using hk)]
        exact ih h
      · simp only [List.filter_cons, hkeep, if_false, Bool.false_eq_true]
        exact ih h

lemma purge_stale_all_equal {now per : Nat} {m : AttemptMap} {ip : Nat} {lc : List Nat}
    (hall : ∀ e ∈ m, e.1 = ip → e.2 = lc) (hstale : ¬ (now - lastTs lc ≤ per)) :
    lookupTs (purgeExpired now per m) ip = none := by
  apply lookupTs_eq_none_of_no_key
  intro e he hk
  rcases List.mem_filter.mp he with ⟨hm, hpred⟩
  have hl : e.2 = lc := hall e hm hk
  rw [hl] at hpred
  exact hstale (of_decide_eq_true hpred)

lemma find?_append_right_of_none {α : Type} {p : α → Bool} {m : List α}
    (h : ∀ e ∈ m, ¬ p e = true) (l : List α) :
    List.find? p (m ++ l) = List.find? p l := by
  induction m with
  | nil => rfl
  | cons e rest ih =>
    rw [List.cons_append, List.find?_cons_of_neg _ (h e (by simp))]
    exact ih (fun x hx => h x (by simp [hx]))

lemma lookupTs_mapInsert_self (m : AttemptMap) (ip : Nat) (v : List Nat) :
    lookupTs (mapInsert m ip v) ip = some v := by
  unfold mapInsert
  split
  · next hpres =>
    unfold lookupTs
    induction m with
    | nil => simp at hpres
    | cons e rest ih =>
      by_cases hk : e.1 = ip
      · simp only [List.map_cons, if_pos hk]
        rw [List.find?_cons_of_pos _ (by simp)]
        rfl
      · simp only [List.map_cons, if_neg hk]
        rw [List.find?_cons_of_neg _ (by simpa using hk)]
        apply ih
        rw [List.find?_cons_of_neg _ (by simpa using hk)] at hpres
        exact hpres
  · next hpres =>
    unfold lookupTs
    have hnone : m.find? (fun e => decide (e.1 = ip)) = none :=
      Option.not_isSome_iff_eq_none.mp hpres
    have hkeys : ∀ e ∈ m, ¬ ((fun e => decide (e.1 = ip)) e) = true :=
      List.find?_eq_none.mp hnone
    rw [find?_append_right_of_none hkeys]
    rw [List.find?_cons_of_pos _ (by simp)]
    rfl

lemma mapInsert_key_val {m : AttemptMap} {ip : Nat} {v : List Nat} :
    ∀ e ∈ mapInsert m ip v, e.1 = ip → e.2 = v := by
  intro e he hk
  unfold mapInsert at he
  split at he
  · rcases List.mem_map.mp he with ⟨x, hx, hfx⟩
    by_cases hxip : x.1 = ip
    · rw [← hfx]; simp [hxip]
    · rw [← hfx] at hk
      simp only [if_neg hxip] at hk
      exact absurd hk hxip
  · next habs =>
    rcases List.mem_append.mp he with hm | hm
    · exfalso
      have hnone : m.find? (fun e => decide (e.1 = ip)) = none :=
        Option.not_isSome_iff_eq_none.mp habs
      have := List.find?_eq_none.mp hnone e hm
      simp [hk] at this
    · simp only [List.mem_singleton] at hm
      rw [hm]

lemma mapRemove_no_key (m : AttemptMap) (ip : Nat) :
    ∀ e ∈ mapRemove m ip, e.1 ≠ ip := by
  intro e he
  have := (List.mem_filter.mp he).2
  simpa using this

lemma lookupTs_mapRemove_self (m : AttemptMap) (ip : Nat) :
    lookupTs (mapRemove m ip) ip = none :=
  lookupTs_eq_none_of_no_key (mapRemove_no_key m ip)

lemma adjAllB_cons {r : Nat → Nat → Bool} {a : Nat} {l : List Nat}
    (h : adjAllB r (a :: l) = true) :
    (∀ b, l.head? = some b → r a b = true) ∧ adjAllB r l = true := by
  cases l with
  | nil => exact ⟨by intro b hb; simp at hb, rfl⟩
  | cons b t =>
    simp only [adjAllB, Bool.and_eq_true] at h
    exact ⟨by intro b' hb'; simp at hb'; rw [← hb']; exact h.1, h.2⟩

lemma partA_aux (cfg : Config) (ip t : Nat) (hns : isTrusted cfg ip = false) :
    ∀ (pts : List Nat) (m : AttemptMap) (acc : List Nat),
      lookupTs m ip = some acc → acc ≠ [] →
      (∀ u ∈ acc, u ≤ t ∧ t - u ≤ cfg.connectionAttemptPeriod) →
      (∀ u ∈ pts, u ≤ t ∧ t - u ≤ cfg.connectionAttemptPeriod) →
      acc.length + pts.length ≤ cfg.maxConnectionAttempts →
      lookupTs (runChecksMap cfg ip m pts) ip = some (acc ++ pts) := by
  intro pts
  induction pts with
  | nil =>
    intro m acc hl _ _ _ _
    simpa [runChecksMap] using hl
  | cons u rest ih =>
    intro m acc hl hne hacc hpts hlen
    have hu := hpts u (by simp)
    have hfresh : u - lastTs acc ≤ cfg.connectionAttemptPeriod := by
      have h1 : u - lastTs acc ≤ t - lastTs acc := Nat.sub_le_sub_right hu.1 _
      exact le_trans h1 (hacc _ (lastTs_mem hne)).2
    have hpk : lookupTs (purgeExpired u cfg.connectionAttemptPeriod m) ip = some acc :=
      lookupTs_purge_keep hl hfresh
    have hstep : check_connection_attempts cfg m ip u =
        ⟨mapInsert (purgeExpired u cfg.connectionAttemptPeriod m) ip (acc ++ [u]),
          false, none⟩ := by
      unfold check_connection_attempts
      rw [hns]
      dsimp only
      rw [hpk]
      dsimp only [Option.getD]
      have hcond : ¬ (acc ++ [u]).length > cfg.maxConnectionAttempts := by
        simp only [List.length_append, List.length_cons, List.length_nil]
        simp only [List.length_cons] at hlen
        omega
      rw [if_neg hcond]
      rfl
    simp only [runChecksMap, hstep]
    have := ih (mapInsert (purgeExpired u cfg.connectionAttemptPeriod m) ip (acc ++ [u]))
      (acc ++ [u])
      (lookupTs_mapInsert_self _ _ _)
      (by simp)
      (by
        intro x hx
        rcases List.mem_append.mp hx with hx | hx
        · exact hacc x hx
        · simp at hx; rw [hx]; exact hu)
      (fun x hx => hpts x (by simp [hx]))
      (by simp at hlen ⊢; omega)
    simpa [List.append_assoc] using this

lemma partA_main (cfg : Config) (ip : Nat) (m : AttemptMap) (prevTimes : List Nat)
    (t : Nat) (hns : isTrusted cfg ip = false) (h0 : lookupTs m ip = none)
    (hlen : prevTimes.length = cfg.maxConnectionAttempts)
    (hwin : ∀ u ∈ prevTimes, u ≤ t ∧ t - u ≤ cfg.connectionAttemptPeriod) :
    (check_connection_attempts cfg (runChecksMap cfg ip m prevTimes) ip t).blocked = true ∧
    lookupTs (check_connection_attempts cfg (runChecksMap cfg ip m prevTimes) ip t).attempts ip = none ∧
    (check_connection_attempts cfg (runChecksMap cfg ip m prevTimes) ip t).firewallRequest =
      (if cfg.enableFirewallIpBlocking then some ip else none) := by
  have hgetd : (lookupTs (purgeExpired t cfg.connectionAttemptPeriod
      (runChecksMap cfg ip m prevTimes)) ip).getD [] = prevTimes := by
    rcases hprev : prevTimes with _ | ⟨u, rest⟩
    · have hm : runChecksMap cfg ip m [] = m := rfl
      rw [hm, lookupTs_purge_none h0]
      rfl
    · rw [hprev] at hlen hwin
      have hu := hwin u (by simp)
      have hmax : 1 ≤ cfg.maxConnectionAttempts := by
        simp only [List.length_cons] at hlen; omega
      have hpn : lookupTs (purgeExpired u cfg.connectionAttemptPeriod m) ip = none :=
        lookupTs_purge_none h0
      have hstep1 : check_connection_attempts cfg m ip u =
          ⟨mapInsert (purgeExpired u cfg.connectionAttemptPeriod m) ip [u],
            false, none⟩ := by
        unfold check_connection_attempts
        rw [hns]
        dsimp only
        rw [hpn]
        have hcond : ¬ ((none : Option (List Nat)).getD [] ++ [u]).length >
            cfg.maxConnectionAttempts := by
          simp only [Option.getD, List.nil_append, List.length_cons, List.length_nil]
          omega
        rw [if_neg hcond]
        rfl
      have hrun : runChecksMap cfg ip m (u :: rest) =
          runChecksMap cfg ip
            (mapInsert (purgeExpired u cfg.connectionAttemptPeriod m) ip [u]) rest := by
        simp only [runChecksMap, hstep1]
      have hF := partA_aux cfg ip t hns rest
        (mapInsert (purgeExpired u cfg.connectionAttemptPeriod m) ip [u]) [u]
        (lookupTs_mapInsert_self _ _ _)
        (by simp)
        (by intro x hx; simp at hx; rw [hx]; exact hu)
        (fun x hx => hwin x (by simp [hx]))
        (by simp only [List.length_cons, List.length_nil] at hlen ⊢; omega)
      rw [hrun]
      have hne : (u :: rest) ≠ ([] : List Nat) := by simp
      have hfresh : t - lastTs (u :: rest) ≤ cfg.connectionAttemptPeriod :=
        (hwin _ (lastTs_mem hne)).2
      have hcons : ([u] ++ rest) = u :: rest := rfl
      rw [hcons] at hF
      rw [lookupTs_purge_keep hF hfresh]
      rfl
  have hfull : check_connection_attempts cfg (runChecksMap cfg ip m prevTimes) ip t =
      ⟨mapRemove (mapInsert (purgeExpired t cfg.connectionAttemptPeriod
          (runChecksMap cfg ip m prevTimes)) ip (prevTimes ++ [t])) ip, true,
        if cfg.enableFirewallIpBlocking then some ip else none⟩ := by
    unfold check_connection_attempts
    rw [hns]
    dsimp only
    rw [hgetd]
    have hcond : (prevTimes ++ [t]).length > cfg.maxConnectionAttempts := by
      simp only [List.length_append, List.length_cons, List.length_nil]
      omega
    rw [if_pos hcond]
    rfl
  rw [hfull]
  exact ⟨rfl, lookupTs_mapRemove_self _ _, rfl⟩

lemma lookup_len_le_of_all_equal {m : AttemptMap} {ip : Nat} {lc : List Nat}
    (hall : ∀ e ∈ m, e.1 = ip → e.2 = lc) (hlen1 : lc.length ≤ 1) :
    ((lookupTs m ip).getD []).length ≤ 1 := by
  rcases h : lookupTs m ip with _ | l
  · simp
  · rcases lookupTs_some_mem h with ⟨e, hm, hk, hv⟩
    have : l = lc := by rw [← hv]; exact hall e hm hk
    simp [this, hlen1]

lemma purgeB_getd (cfg : Config) {ip : Nat} {m : AttemptMap} {lc : List Nat}
    (tcur : Nat) (hall : ∀ e ∈ m, e.1 = ip → e.2 = lc) (hlen1 : lc.length ≤ 1)
    (hhead : ∀ u, lc = [u] → cfg.connectionAttemptPeriod < tcur - u) :
    (lookupTs (purgeExpired tcur cfg.connectionAttemptPeriod m) ip).getD [] = [] := by
  rcases hlc : lc with _ | ⟨u, _ | ⟨y, tl⟩⟩
  · rcases h : lookupTs (purgeExpired tcur cfg.connectionAttemptPeriod m) ip with _ | l
    · rfl
    · rcases lookupTs_some_mem h with ⟨e, hm, hk, hv⟩
      have hin : e ∈ m := (List.mem_filter.mp hm).1
      have : e.2 = lc := hall e hin hk
      rw [← hv, this, hlc]
      rfl
  · have hstale : ¬ (tcur - lastTs [u] ≤ cfg.connectionAttemptPeriod) := by
      have := hhead u hlc
      rw [show lastTs [u] = u from rfl]
      omega
    rw [hlc] at hall
    rw [purge_stale_all_equal hall hstale]
    rfl
  · rw [hlc] at hlen1; simp at hlen1

lemma checkB_all_equal {cfg : Config} {ip : Nat} {m : AttemptMap} (tcur : Nat)
    (hns : isTrusted cfg ip = false)
    (hgetd0 : (lookupTs (purgeExpired tcur cfg.connectionAttemptPeriod m) ip).getD [] = []) :
    ∀ e ∈ (check_connection_attempts cfg m ip tcur).attempts, e.1 = ip → e.2 = [tcur] := by
  intro e he hk
  unfold check_connection_attempts at he
  rw [hns] at he
  simp only [Bool.false_eq_true, if_false] at he
  rw [hgetd0] at he
  simp only [List.nil_append] at he
  split at he
  · exact absurd hk (mapRemove_no_key _ _ e he)
  · exact mapInsert_key_val e he hk

lemma partB_aux (cfg : Config) (ip : Nat) (hns : isTrusted cfg ip = false) :
    ∀ (times : List Nat) (m : AttemptMap) (lc : List Nat),
      (∀ e ∈ m, e.1 = ip → e.2 = lc) →
      lc.length ≤ 1 →
      (∀ t0, times.head? = some t0 → ∀ u, lc = [u] →
        cfg.connectionAttemptPeriod < t0 - u) →
      adjAllB (fun a b => decide (cfg.connectionAttemptPeriod < b - a)) times = true →
      ∀ j, ((lookupTs (runChecksMap cfg ip m (times.take j)) ip).getD []).length ≤ 1 := by
  intro times
  induction times with
  | nil =>
    intro m lc hall hlen1 _ _ j
    simp only [List.take_nil, runChecksMap]
    exact lookup_len_le_of_all_equal hall hlen1
  | cons tcur rest ih =>
    intro m lc hall hlen1 hhead hadj j
    cases j with
    | zero =>
      simp only [List.take_zero, runChecksMap]
      exact lookup_len_le_of_all_equal hall hlen1
    | succ j' =>
      have hgetd0 := purgeB_getd cfg tcur hall hlen1
        (fun u hu => hhead tcur (by simp) u hu)
      have hall' := checkB_all_equal tcur hns hgetd0
      have hadj' := adjAllB_cons hadj
      simp only [List.take_succ_cons, runChecksMap]
      exact ih (check_connection_attempts cfg m ip tcur).attempts [tcur]
        hall' (by simp)
        (by
          intro t0 ht0 u hu
          have hu' : u = tcur := by injection hu with h1 h2; exact h1.symm
          rw [hu']
          have := hadj'.1 t0 ht0
          exact of_decide_eq_true this)
        hadj'.2 j'

/-! ## Helper lemmas on the CIDR model and the subnet planner -/

lemma csize_pos (c : Cidr) : 0 < csize c := Nat.pos_pow_of_pos _ (by omega)

lemma memB_iff {x : Nat} {c : Cidr} :
    memB x c = true ↔ c.base ≤ x ∧ x < c.base + csize c := by
  simp [memB]

lemma subB_iff {a b : Cidr} :
    subB a b = true ↔ b.base ≤ a.base ∧ a.base + csize a ≤ b.base + csize b := by
  simp [subB]

lemma base_memB (c : Cidr) : memB c.base c = true :=
  memB_iff.mpr ⟨le_refl _, by have := csize_pos c; omega⟩

lemma memB_of_subB {a b : Cidr} {x : Nat} (hs : subB a b = true)
    (hm : memB x a = true) : memB x b = true := by
  rcases subB_iff.mp hs with ⟨h1, h2⟩
  rcases memB_iff.mp hm with ⟨h3, h4⟩
  exact memB_iff.mpr ⟨by omega, by omega⟩

lemma subB_refl (c : Cidr) : subB c c = true := subB_iff.mpr ⟨le_refl _, le_refl _⟩

lemma subB_trans {a b c : Cidr} (h1 : subB a b = true) (h2 : subB b c = true) :
    subB a c = true := by
  rcases subB_iff.mp h1 with ⟨x1, x2⟩
  rcases subB_iff.mp h2 with ⟨y1, y2⟩
  exact subB_iff.mpr ⟨by omega, by omega⟩

lemma csize_le_of_subB {a b : Cidr} (h : subB a b = true) : csize a ≤ csize b := by
  rcases subB_iff.mp h with ⟨h1, h2⟩
  omega

lemma len_eq_of_csize_eq {a b : Cidr} (ha : cvalid a) (hb : cvalid b)
    (h : csize a = csize b) : a.len = b.len := by
  unfold csize at h
  have := Nat.pow_right_injective (le_refl 2) h
  rcases ha with ⟨ha1, -, -⟩
  rcases hb with ⟨hb1, -, -⟩
  omega

lemma eq_of_subB_of_csize_le {a b : Cidr} (ha : cvalid a) (hb : cvalid b)
    (hs : subB a b = true) (hle : csize b ≤ csize a) : a = b := by
  rcases subB_iff.mp hs with ⟨h1, h2⟩
  have hsz : csize a = csize b := le_antisymm (csize_le_of_subB hs) hle
  have hbase : a.base = b.base := by omega
  have hlen : a.len = b.len := len_eq_of_csize_eq ha hb hsz
  cases a; cases b
  simp_all

lemma csize_dvd_of_le {a b : Cidr} (h : csize a ≤ csize b) : csize a ∣ csize b := by
  unfold csize at h ⊢
  exact pow_dvd_pow 2 ((Nat.pow_le_pow_iff_right (by omega)).mp h)

lemma subB_of_mem_of_csize_le {a b : Cidr} {x : Nat}
    (ha : cvalid a) (hb : cvalid b) (hle : csize a ≤ csize b)
    (hxa : memB x a = true) (hxb : memB x b = true) : subB a b = true := by
  rcases memB_iff.mp hxa with ⟨ha1, ha2⟩
  rcases memB_iff.mp hxb with ⟨hb1, hb2⟩
  rcases ha with ⟨-, -, hdva⟩
  rcases hb with ⟨-, -, hdvb⟩
  have hkm : csize a ∣ csize b := csize_dvd_of_le hle
  set k := csize a with hk
  set m := csize b with hm
  set A := a.base with hA
  set B := b.base with hB
  have hkpos := csize_pos a
  have hmpos := csize_pos b
  -- decompose A by m
  have hrA : A % m < m := Nat.mod_lt _ hmpos
  have hdvr : k ∣ A % m := (Nat.dvd_mod_iff hkm).mpr hdva
  have hrle : A % m + k ≤ m := by
    rcases Nat.eq_zero_or_pos (A % m) with h0 | hpos
    · rw [h0]; simpa using Nat.le_of_dvd hmpos hkm
    · have hsub : k ∣ (m - A % m) := Nat.dvd_sub' hkm hdvr
      have : k ≤ m - A % m := Nat.le_of_dvd (by omega) hsub
      omega
  have hAm := Nat.div_add_mod A m
  rw [Nat.mul_comm] at hAm
  -- x / m = A / m
  have hxdivA : x / m = A / m := by
    apply Nat.div_eq_of_lt_le
    · omega
    · rw [Nat.add_mul, Nat.one_mul]
      omega
  -- x / m = B / m and B = (B / m) * m
  have hBm : (B / m) * m = B := by
    rw [Nat.mul_comm]
    exact Nat.mul_div_cancel' hdvb
  have hxdivB : x / m = B / m := by
    apply Nat.div_eq_of_lt_le
    · omega
    · rw [Nat.add_mul, Nat.one_mul]
      omega
  have hBA : B = (A / m) * m := by rw [← hBm, ← hxdivB, hxdivA]
  apply subB_iff.mpr
  constructor
  · omega
  · omega

lemma cidr_dichotomy {a b : Cidr} {x : Nat} (ha : cvalid a) (hb : cvalid b)
    (hxa : memB x a = true) (hxb : memB x b = true) :
    subB a b = true ∨ subB b a = true := by
  rcases le_total (csize a) (csize b) with h | h
  · exact Or.inl (subB_of_mem_of_csize_le ha hb h hxa hxb)
  · exact Or.inr (subB_of_mem_of_csize_le hb ha h hxb hxa)



lemma csize_lower_eq_upper (c : Cidr) : csize (lowerHalf c) = csize (upperHalf c) := rfl

lemma upperHalf_base (c : Cidr) : (upperHalf c).base = c.base + csize (lowerHalf c) := rfl

lemma csize_split {c : Cidr} (h : c.len < 32) :
    csize c = csize (lowerHalf c) + csize (upperHalf c) := by
  rw [← csize_lower_eq_upper]
  show (2 : Nat) ^ (32 - c.len) = 2 ^ (32 - (c.len + 1)) + 2 ^ (32 - (c.len + 1))
  have he : 32 - c.len = (32 - (c.len + 1)) + 1 := by omega
  rw [he, pow_succ]
  omega

lemma lowerHalf_valid {c : Cidr} (hc : cvalid c) (h : c.len < 32) :
    cvalid (lowerHalf c) := by
  rcases hc with ⟨h1, h2, h3⟩
  have hsz := csize_split h
  have hup := csize_pos (upperHalf c)
  refine ⟨?_, ?_, ?_⟩
  · show c.len + 1 ≤ 32
    omega
  · show c.base + csize (lowerHalf c) ≤ 2 ^ 32
    omega
  · have hdv : csize (lowerHalf c) ∣ csize c := csize_dvd_of_le (by omega)
    exact dvd_trans hdv h3

lemma upperHalf_valid {c : Cidr} (hc : cvalid c) (h : c.len < 32) :
    cvalid (upperHalf c) := by
  rcases hc with ⟨h1, h2, h3⟩
  have hsz := csize_split h
  rw [← csize_lower_eq_upper] at hsz
  have hlow := csize_pos (lowerHalf c)
  refine ⟨?_, ?_, ?_⟩
  · show c.len + 1 ≤ 32
    omega
  · rw [upperHalf_base, ← csize_lower_eq_upper]
    omega
  · rw [upperHalf_base]
    have hdv : csize (lowerHalf c) ∣ csize c := csize_dvd_of_le (by omega)
    rw [← csize_lower_eq_upper]
    exact Nat.dvd_add (dvd_trans hdv h3) dvd_rfl

lemma subB_lowerHalf {c : Cidr} (h : c.len < 32) : subB (lowerHalf c) c = true := by
  have hsz := csize_split h
  have hup := csize_pos (upperHalf c)
  exact subB_iff.mpr ⟨le_refl _, by show c.base + csize (lowerHalf c) ≤ _; omega⟩

lemma subB_upperHalf {c : Cidr} (h : c.len < 32) : subB (upperHalf c) c = true := by
  have hsz := csize_split h
  rw [← csize_lower_eq_upper] at hsz
  apply subB_iff.mpr
  rw [upperHalf_base, ← csize_lower_eq_upper]
  constructor
  · omega
  · omega

lemma mem_split {c : Cidr} {x : Nat} (h : c.len < 32) :
    memB x c = true ↔
      (memB x (lowerHalf c) = true ∨ memB x (upperHalf c) = true) := by
  have hsz := csize_split h
  have hub := upperHalf_base c
  have hce : csize (lowerHalf c) = csize (upperHalf c) := rfl
  have hlb : (lowerHalf c).base = c.base := rfl
  constructor
  · intro hm
    rcases memB_iff.mp hm with ⟨m1, m2⟩
    by_cases hx : x < c.base + csize (lowerHalf c)
    · exact Or.inl (memB_iff.mpr ⟨by omega, by omega⟩)
    · exact Or.inr (memB_iff.mpr ⟨by omega, by omega⟩)
  · intro hm
    rcases hm with hm | hm <;> rcases memB_iff.mp hm with ⟨m1, m2⟩
    · exact memB_iff.mpr ⟨by omega, by omega⟩
    · exact memB_iff.mpr ⟨by omega, by omega⟩

lemma halves_disjoint {c : Cidr} {x : Nat}
    (h1 : memB x (lowerHalf c) = true) (h2 : memB x (upperHalf c) = true) :
    False := by
  rcases memB_iff.mp h1 with ⟨a1, a2⟩
  rcases memB_iff.mp h2 with ⟨b1, b2⟩
  rw [upperHalf_base] at b1
  have hlb : (lowerHalf c).base = c.base := rfl
  omega

lemma csize_squeeze {a b : Cidr} (h1 : csize a ≤ csize b)
    (h2 : csize b < 2 * csize a) : csize b = csize a := by
  unfold csize at h1 h2 ⊢
  have hle := (Nat.pow_le_pow_iff_right (a := 2) (by omega)).mp h1
  have : (2 : Nat) * 2 ^ (32 - a.len) = 2 ^ ((32 - a.len) + 1) := by
    rw [pow_succ]; ring
  rw [this] at h2
  have hlt := (Nat.pow_lt_pow_iff_right (a := 2) (by omega)).mp h2
  have : 32 - b.len = 32 - a.len := by omega
  rw [this]



lemma len_lt_of_strict_subB {a r : Cidr} (ha : cvalid a) (hr : cvalid r)
    (hs : subB a r = true) (hne : a ≠ r) : r.len < a.len := by
  have hle : csize a ≤ csize r := csize_le_of_subB hs
  have hlt : csize a < csize r := by
    rcases lt_or_eq_of_le hle with h | h
    · exact h
    · exact absurd (eq_of_subB_of_csize_le ha hr hs (le_of_eq h.symm)) hne
  unfold csize at hlt
  have := (Nat.pow_lt_pow_iff_right (a := 2) (by omega)).mp hlt
  rcases ha with ⟨ha1, -, -⟩
  omega

lemma descend {r a : Cidr} (hr : cvalid r) (ha : cvalid a)
    (hs : subB a r = true) (hne : a ≠ r) :
    r.len < 32 ∧
      (subB a (lowerHalf r) = true ∨ subB a (upperHalf r) = true) := by
  have hlen := len_lt_of_strict_subB ha hr hs hne
  have h32 : r.len < 32 := by
    rcases ha with ⟨ha1, -, -⟩
    omega
  refine ⟨h32, ?_⟩
  have hbm : memB a.base r = true := memB_of_subB hs (base_memB a)
  have hszr := csize_split h32
  have hcsa : csize a < csize r := by
    rcases lt_or_eq_of_le (csize_le_of_subB hs) with h | h
    · exact h
    · exact absurd (eq_of_subB_of_csize_le ha hr hs (le_of_eq h.symm)) hne
  have hhalf : csize r = 2 * csize (lowerHalf r) := by
    rw [← csize_lower_eq_upper] at hszr
    omega
  rcases (mem_split h32).mp hbm with hm | hm
  · left
    rcases cidr_dichotomy ha (lowerHalf_valid hr h32) (base_memB a) hm with h | h
    · exact h
    · -- the half is contained in a: then a equals the half
      have h1 : csize (lowerHalf r) ≤ csize a := csize_le_of_subB h
      have h2 : csize a = csize (lowerHalf r) := by
        have := csize_squeeze h1 (by omega)
        omega
      have := eq_of_subB_of_csize_le (lowerHalf_valid hr h32) ha h (le_of_eq h2)
      rw [← this]
      exact subB_refl _
  · right
    rcases cidr_dichotomy ha (upperHalf_valid hr h32) (base_memB a) hm with h | h
    · exact h
    · have h1 : csize (upperHalf r) ≤ csize a := csize_le_of_subB h
      have h2 : csize a = csize (upperHalf r) := by
        have hce : csize (lowerHalf r) = csize (upperHalf r) := rfl
        have := csize_squeeze h1 (by omega)
        omega
      have := eq_of_subB_of_csize_le (upperHalf_valid hr h32) ha h (le_of_eq h2)
      rw [← this]
      exact subB_refl _



lemma csize_double_le {a b : Cidr} (h : csize a < csize b) :
    2 * csize a ≤ csize b := by
  unfold csize at h ⊢
  have hlt := (Nat.pow_lt_pow_iff_right (a := 2) (by omega)).mp h
  have h2 : (2 : Nat) * 2 ^ (32 - a.len) = 2 ^ ((32 - a.len) + 1) := by
    rw [pow_succ]; ring
  rw [h2]
  exact Nat.pow_le_pow_right (by omega) (by omega)

lemma coveredBy_cons (x : Nat) (c : Cidr) (l : List Cidr) :
    coveredBy x (c :: l) = (memB x c || coveredBy x l) := by
  simp [coveredBy]

lemma sibling_ancestor {r a s : Cidr} (hr : cvalid r) (_ha : cvalid a)
    (h32 : r.len < 32) (hs : subB a r = true)
    (hsib : s = lowerHalf r ∨ s = upperHalf r) :
    ∀ d, cvalid d → subB s d = true → s ≠ d → subB a d = true := by
  intro d hd hsd hne
  have hsv : cvalid s := by
    rcases hsib with h | h <;> rw [h]
    · exact lowerHalf_valid hr h32
    · exact upperHalf_valid hr h32
  have hsr : subB s r = true := by
    rcases hsib with h | h <;> rw [h]
    · exact subB_lowerHalf h32
    · exact subB_upperHalf h32
  have hhalf : csize r = 2 * csize s := by
    have hcs := csize_split h32
    rw [← csize_lower_eq_upper] at hcs
    rcases hsib with h | h <;> rw [h]
    · omega
    · rw [← csize_lower_eq_upper]
      omega
  have hmd : memB s.base d = true := memB_of_subB hsd (base_memB s)
  have hmr : memB s.base r = true := memB_of_subB hsr (base_memB s)
  rcases cidr_dichotomy hd hr hmd hmr with h | h
  · -- d inside r: show d = r
    have hlt : csize s < csize d := by
      rcases lt_or_eq_of_le (csize_le_of_subB hsd) with hh | hh
      · exact hh
      · exact absurd (eq_of_subB_of_csize_le hsv hd hsd (le_of_eq hh.symm)) hne
    have hge : 2 * csize s ≤ csize d := csize_double_le hlt
    have hdr : d = r := by
      apply eq_of_subB_of_csize_le hd hr h
      omega
    rw [hdr]
    exact hs
  · exact subB_trans hs h



lemma addressExcludeAux_spec :
    ∀ (fuel : Nat) (r a : Cidr), cvalid r → cvalid a → subB a r = true → a ≠ r →
      a.len - r.len ≤ fuel →
      (∀ c ∈ addressExcludeAux fuel r a, cvalid c ∧ subB c r = true) ∧
      (∀ x, coveredBy x (addressExcludeAux fuel r a) = true ↔
        (memB x r = true ∧ memB x a = false)) ∧
      (∀ c ∈ addressExcludeAux fuel r a, ∀ d, cvalid d → subB c d = true → c ≠ d →
        subB a d = true) := by
  intro fuel
  induction fuel with
  | zero =>
    intro r a hr ha hs hne hfuel
    have := len_lt_of_strict_subB ha hr hs hne
    omega
  | succ fuel ih =>
    intro r a hr ha hs hne hfuel
    have hdn := descend hr ha hs hne
    have h32 := hdn.1
    have hlen := len_lt_of_strict_subB ha hr hs hne
    have hs1v := lowerHalf_valid hr h32
    have hs2v := upperHalf_valid hr h32
    have hs1r := subB_lowerHalf h32
    have hs2r := subB_upperHalf h32
    by_cases h1 : a = lowerHalf r
    · have haux : addressExcludeAux (fuel + 1) r a = [upperHalf r] := by
        unfold addressExcludeAux
        dsimp only
        rw [if_pos h1]
      rw [haux]
      refine ⟨?_, ?_, ?_⟩
      · intro c hc
        simp only [List.mem_singleton] at hc
        subst hc
        exact ⟨hs2v, hs2r⟩
      · intro x
        rw [coveredBy_cons]
        simp only [coveredBy, List.any_nil, Bool.or_false]
        constructor
        · intro hm
          refine ⟨memB_of_subB hs2r hm, ?_⟩
          cases hca : memB x a with
          | false => rfl
          | true =>
            rw [h1] at hca
            exact absurd (halves_disjoint hca hm) (by simp)
        · rintro ⟨hxr, hxa⟩
          rcases (mem_split h32).mp hxr with hm | hm
          · rw [← h1] at hm
            rw [hm] at hxa
            cases hxa
          · exact hm
      · intro c hc d hdv hcd hne2
        simp only [List.mem_singleton] at hc
        subst hc
        exact sibling_ancestor hr ha h32 hs (Or.inr rfl) d hdv hcd hne2
    · by_cases h2 : a = upperHalf r
      · have haux : addressExcludeAux (fuel + 1) r a = [lowerHalf r] := by
          unfold addressExcludeAux
          dsimp only
          rw [if_neg h1, if_pos h2]
        rw [haux]
        refine ⟨?_, ?_, ?_⟩
        · intro c hc
          simp only [List.mem_singleton] at hc
          subst hc
          exact ⟨hs1v, hs1r⟩
        · intro x
          rw [coveredBy_cons]
          simp only [coveredBy, List.any_nil, Bool.or_false]
          constructor
          · intro hm
            refine ⟨memB_of_subB hs1r hm, ?_⟩
            cases hca : memB x a with
            | false => rfl
            | true =>
              rw [h2] at hca
              exact absurd (halves_disjoint hm hca) (by simp)
          · rintro ⟨hxr, hxa⟩
            rcases (mem_split h32).mp hxr with hm | hm
            · exact hm
            · rw [← h2] at hm
              rw [hm] at hxa
              cases hxa
        · intro c hc d hdv hcd hne2
          simp only [List.mem_singleton] at hc
          subst hc
          exact sibling_ancestor hr ha h32 hs (Or.inl rfl) d hdv hcd hne2
      · by_cases hsub1 : subB a (lowerHalf r) = true
        · have haux : addressExcludeAux (fuel + 1) r a =
              upperHalf r :: addressExcludeAux fuel (lowerHalf r) a := by
            simp only [addressExcludeAux]
            rw [if_neg h1, if_neg h2, if_pos hsub1]
          have hih := ih (lowerHalf r) a hs1v ha hsub1 h1
            (by show a.len - (r.len + 1) ≤ fuel; omega)
          rw [haux]
          refine ⟨?_, ?_, ?_⟩
          · intro c hc
            rcases List.mem_cons.mp hc with hc | hc
            · subst hc
              exact ⟨hs2v, hs2r⟩
            · rcases hih.1 c hc with ⟨hv, hsc⟩
              exact ⟨hv, subB_trans hsc hs1r⟩
          · intro x
            rw [coveredBy_cons, Bool.or_eq_true, hih.2.1 x]
            constructor
            · intro hm
              rcases hm with hm | ⟨hm1, hma⟩
              · refine ⟨memB_of_subB hs2r hm, ?_⟩
                cases hca : memB x a with
                | false => rfl
                | true =>
                  exact absurd (halves_disjoint (memB_of_subB hsub1 hca) hm) (by simp)
              · exact ⟨memB_of_subB hs1r hm1, hma⟩
            · rintro ⟨hxr, hxa⟩
              rcases (mem_split h32).mp hxr with hm | hm
              · exact Or.inr ⟨hm, hxa⟩
              · exact Or.inl hm
          · intro c hc d hdv hcd hne2
            rcases List.mem_cons.mp hc with hc | hc
            · subst hc
              exact sibling_ancestor hr ha h32 hs (Or.inr rfl) d hdv hcd hne2
            · exact hih.2.2 c hc d hdv hcd hne2
        · have hsub2 : subB a (upperHalf r) = true := by
            rcases hdn.2 with h | h
            · exact absurd h hsub1
            · exact h
          have haux : addressExcludeAux (fuel + 1) r a =
              lowerHalf r :: addressExcludeAux fuel (upperHalf r) a := by
            simp only [addressExcludeAux]
            rw [if_neg h1, if_neg h2, if_neg hsub1, if_pos hsub2]
          have hih := ih (upperHalf r) a hs2v ha hsub2 h2
            (by show a.len - (r.len + 1) ≤ fuel; omega)
          rw [haux]
          refine ⟨?_, ?_, ?_⟩
          · intro c hc
            rcases List.mem_cons.mp hc with hc | hc
            · subst hc
              exact ⟨hs1v, hs1r⟩
            · rcases hih.1 c hc with ⟨hv, hsc⟩
              exact ⟨hv, subB_trans hsc hs2r⟩
          · intro x
            rw [coveredBy_cons, Bool.or_eq_true, hih.2.1 x]
            constructor
            · intro hm
              rcases hm with hm | ⟨hm1, hma⟩
              · refine ⟨memB_of_subB hs1r hm, ?_⟩
                cases hca : memB x a with
                | false => rfl
                | true =>
                  exact absurd (halves_disjoint hm (memB_of_subB hsub2 hca)) (by simp)
              · exact ⟨memB_of_subB hs2r hm1, hma⟩
            · rintro ⟨hxr, hxa⟩
              rcases (mem_split h32).mp hxr with hm | hm
              · exact Or.inl hm
              · exact Or.inr ⟨hm, hxa⟩
          · intro c hc d hdv hcd hne2
            rcases List.mem_cons.mp hc with hc | hc
            · subst hc
              exact sibling_ancestor hr ha h32 hs (Or.inl rfl) d hdv hcd hne2
            · exact hih.2.2 c hc d hdv hcd hne2



lemma address_exclude_spec {r a : Cidr} (hr : cvalid r) (ha : cvalid a)
    (hs : subB a r = true) :
    (∀ c ∈ address_exclude r a, cvalid c ∧ subB c r = true) ∧
    (∀ x, coveredBy x (address_exclude r a) = true ↔
      (memB x r = true ∧ memB x a = false)) ∧
    (∀ c ∈ address_exclude r a, ∀ d, cvalid d → subB c d = true → c ≠ d →
      subB a d = true) := by
  unfold address_exclude
  by_cases he : a = r
  · rw [if_pos he]
    refine ⟨by simp, ?_, by simp⟩
    intro x
    simp only [coveredBy, List.any_nil]
    constructor
    · intro h; cases h
    · rintro ⟨hxr, hxa⟩
      rw [he] at hxa
      rw [hxr] at hxa
      cases hxa
  · rw [if_neg he]
    apply addressExcludeAux_spec 32 r a hr ha hs he
    rcases ha with ⟨h1, -, -⟩
    omega

lemma disjB_not_both {a b : Cidr} {x : Nat} (hd : disjB a b = true)
    (hxa : memB x a = true) (hxb : memB x b = true) : False := by
  rcases memB_iff.mp hxa with ⟨a1, a2⟩
  rcases memB_iff.mp hxb with ⟨b1, b2⟩
  simp only [disjB, Bool.or_eq_true, decide_eq_true_eq] at hd
  omega

lemma excludeStep_spec {r a : Cidr} (hr : cvalid r) (ha : cvalid a) :
    (∀ c ∈ excludeStep r a, cvalid c) ∧
    (∀ x, memB x r = true → memB x a = false →
      coveredBy x (excludeStep r a) = true) ∧
    (∀ x, coveredBy x (excludeStep r a) = true → memB x r = true) ∧
    (¬ (subB r a = true ∧ r ≠ a) →
      ∀ x, coveredBy x (excludeStep r a) = true ↔
        (memB x r = true ∧ memB x a = false)) ∧
    (∀ c ∈ excludeStep r a, ∀ d, cvalid d → subB c d = true → c ≠ d →
      subB a d = true ∨ subB r d = true) := by
  unfold excludeStep
  by_cases hsub : subB a r = true
  · rw [if_pos hsub]
    have hspec := address_exclude_spec hr ha hsub
    refine ⟨fun c hc => (hspec.1 c hc).1, ?_, ?_, ?_, ?_⟩
    · intro x h1 h2
      exact (hspec.2.1 x).mpr ⟨h1, h2⟩
    · intro x h
      exact ((hspec.2.1 x).mp h).1
    · intro _ x
      exact hspec.2.1 x
    · intro c hc d hdv hcd hne
      exact Or.inl (hspec.2.2 c hc d hdv hcd hne)
  · rw [if_neg hsub]
    refine ⟨?_, ?_, ?_, ?_, ?_⟩
    · intro c hc
      simp only [List.mem_singleton] at hc
      subst hc
      exact hr
    · intro x h1 _
      simpa [coveredBy] using h1
    · intro x h
      simpa [coveredBy] using h
    · intro hno x
      simp only [coveredBy, List.any_cons, List.any_nil, Bool.or_false]
      constructor
      · intro hxr
        refine ⟨hxr, ?_⟩
        cases hxa : memB x a with
        | false => rfl
        | true =>
          exfalso
          rcases cidr_dichotomy ha hr hxa hxr with h | h
          · exact hsub h
          · apply hno
            refine ⟨h, ?_⟩
            intro hra
            rw [hra] at hsub
            exact hsub (subB_refl a)
      · exact fun h => h.1
    · intro c hc d hdv hcd hne
      simp only [List.mem_singleton] at hc
      subst hc
      exact Or.inr hcd

lemma mem_listFlatMap {α β : Type} {f : α → List β} {y : β} :
    ∀ {l : List α}, y ∈ listFlatMap f l ↔ ∃ x ∈ l, y ∈ f x := by
  intro l
  induction l with
  | nil => simp [listFlatMap]
  | cons e rest ih =>
    simp only [listFlatMap, List.mem_append, ih]
    constructor
    · rintro (h | ⟨x, hx, hy⟩)
      · exact ⟨e, by simp, h⟩
      · exact ⟨x, by simp [hx], hy⟩
    · rintro ⟨x, hx, hy⟩
      rcases List.mem_cons.mp hx with hx | hx
      · subst hx; exact Or.inl hy
      · exact Or.inr ⟨x, hx, hy⟩

lemma coveredBy_listFlatMap {x : Nat} {f : Cidr → List Cidr} :
    ∀ {l : List Cidr}, coveredBy x (listFlatMap f l) = true ↔
      ∃ c ∈ l, coveredBy x (f c) = true := by
  intro l
  induction l with
  | nil => simp [listFlatMap, coveredBy]
  | cons e rest ih =>
    simp only [listFlatMap, coveredBy, List.any_append, Bool.or_eq_true] at *
    constructor
    · rintro (h | h)
      · exact ⟨e, by simp, h⟩
      · rcases ih.mp h with ⟨c, hc, hcc⟩
        exact ⟨c, by simp [hc], hcc⟩
    · rintro ⟨c, hc, hcc⟩
      rcases List.mem_cons.mp hc with hc | hc
      · subst hc; exact Or.inl hcc
      · exact Or.inr (ih.mpr ⟨c, hc, hcc⟩)



lemma stepRanges_valid {a0 : Cidr} {cur : List Cidr} (ha0 : cvalid a0)
    (hC : ∀ c ∈ cur, cvalid c) :
    ∀ c' ∈ listFlatMap (fun r => excludeStep r a0) cur, cvalid c' := by
  intro c' hc'
  rcases mem_listFlatMap.mp hc' with ⟨c, hc, hcc⟩
  exact (excludeStep_spec (hC c hc) ha0).1 c' hcc

lemma noSwallowP_preserved {a0 : Cidr} {rest cur : List Cidr}
    (ha0 : cvalid a0) (hC : ∀ c ∈ cur, cvalid c) (hB : ∀ b ∈ rest, cvalid b)
    (hd : rest.all (fun b => disjB a0 b) = true)
    (hNS : noSwallowP (a0 :: rest) cur) :
    noSwallowP rest (listFlatMap (fun r => excludeStep r a0) cur) := by
  intro b hb c' hc' hbad
  rcases mem_listFlatMap.mp hc' with ⟨c, hc, hcc⟩
  have hcv := hC c hc
  have hbv := hB b hb
  rcases hbad with ⟨hb1, hb2⟩
  have hdab : disjB a0 b = true := by
    have := List.all_eq_true.mp hd b hb
    simpa using this
  have h5 := (excludeStep_spec hcv ha0).2.2.2.2 c' hcc b hbv hb1 hb2
  rcases h5 with h | h
  · exact disjB_not_both hdab (base_memB a0) (memB_of_subB h (base_memB a0))
  · by_cases hcb : c = b
    · unfold excludeStep at hcc
      by_cases hsub : subB a0 c = true
      · rw [hcb] at hsub
        exact disjB_not_both hdab (base_memB a0) (memB_of_subB hsub (base_memB a0))
      · rw [if_neg hsub] at hcc
        simp only [List.mem_singleton] at hcc
        rw [hcc] at hb2
        exact hb2 hcb
    · exact hNS b (by simp [hb]) c hc ⟨h, hcb⟩



lemma applyAvoidList_cons (a0 : Cidr) (rest cur : List Cidr) :
    applyAvoidList (a0 :: rest) cur =
      applyAvoidList rest (listFlatMap (fun r => excludeStep r a0) cur) := rfl

lemma applyAvoidList_valid :
    ∀ (avoid cur : List Cidr), (∀ a ∈ avoid, cvalid a) → (∀ c ∈ cur, cvalid c) →
      ∀ c ∈ applyAvoidList avoid cur, cvalid c := by
  intro avoid
  induction avoid with
  | nil => intro cur _ hC c hc; exact hC c hc
  | cons a0 rest ih =>
    intro cur hA hC
    rw [applyAvoidList_cons]
    exact ih _ (fun a ha => hA a (by simp [ha]))
      (stepRanges_valid (hA a0 (by simp)) hC)

lemma applyAvoidList_sandwich :
    ∀ (avoid cur : List Cidr) (x : Nat),
      (∀ a ∈ avoid, cvalid a) → (∀ c ∈ cur, cvalid c) →
      (coveredBy x (applyAvoidList avoid cur) = true → coveredBy x cur = true) ∧
      (coveredBy x cur = true → coveredBy x avoid = false →
        coveredBy x (applyAvoidList avoid cur) = true) := by
  intro avoid
  induction avoid with
  | nil =>
    intro cur x _ _
    exact ⟨fun h => h, fun h _ => h⟩
  | cons a0 rest ih =>
    intro cur x hA hC
    have ha0 : cvalid a0 := hA a0 (by simp)
    have hCv := stepRanges_valid ha0 hC
    have hihx := ih (listFlatMap (fun r => excludeStep r a0) cur) x
      (fun a ha => hA a (by simp [ha])) hCv
    rw [applyAvoidList_cons]
    constructor
    · intro h
      have h2 := hihx.1 h
      rcases coveredBy_listFlatMap.mp h2 with ⟨c, hc, hcc⟩
      have := (excludeStep_spec (hC c hc) ha0).2.2.1 x hcc
      exact List.any_eq_true.mpr ⟨c, hc, this⟩
    · intro h1 h2
      rw [coveredBy_cons, Bool.or_eq_false_iff] at h2
      rcases List.any_eq_true.mp h1 with ⟨c, hc, hxc⟩
      have hstep := (excludeStep_spec (hC c hc) ha0).2.1 x hxc h2.1
      exact hihx.2 (coveredBy_listFlatMap.mpr ⟨c, hc, hstep⟩) h2.2

lemma applyAvoidList_exact :
    ∀ (avoid cur : List Cidr) (x : Nat),
      (∀ a ∈ avoid, cvalid a) → (∀ c ∈ cur, cvalid c) →
      allPairsDisjoint avoid = true → noSwallowP avoid cur →
      (coveredBy x (applyAvoidList avoid cur) = true ↔
        (coveredBy x cur = true ∧ coveredBy x avoid = false)) := by
  intro avoid
  induction avoid with
  | nil =>
    intro cur x _ _ _ _
    simp [applyAvoidList, coveredBy]
  | cons a0 rest ih =>
    intro cur x hA hC hPair hNS
    have ha0 : cvalid a0 := hA a0 (by simp)
    have hCv := stepRanges_valid ha0 hC
    have hPair' : (rest.all (fun b => disjB a0 b) = true) ∧
        allPairsDisjoint rest = true := by
      simpa [allPairsDisjoint, Bool.and_eq_true] using hPair
    have hNS' := noSwallowP_preserved ha0 hC
      (fun b hb => hA b (by simp [hb])) hPair'.1 hNS
    have hih := ih (listFlatMap (fun r => excludeStep r a0) cur) x
      (fun a ha => hA a (by simp [ha])) hCv hPair'.2 hNS'
    rw [applyAvoidList_cons, hih]
    have hstepcov : coveredBy x (listFlatMap (fun r => excludeStep r a0) cur) = true ↔
        (coveredBy x cur = true ∧ memB x a0 = false) := by
      constructor
      · intro h
        rcases coveredBy_listFlatMap.mp h with ⟨c, hc, hcc⟩
        have hex := (excludeStep_spec (hC c hc) ha0).2.2.2.1
          (fun hbad => hNS a0 (by simp) c hc hbad) x
        rcases hex.mp hcc with ⟨h1, h2⟩
        exact ⟨List.any_eq_true.mpr ⟨c, hc, h1⟩, h2⟩
      · rintro ⟨h1, h2⟩
        rcases List.any_eq_true.mp h1 with ⟨c, hc, hxc⟩
        exact coveredBy_listFlatMap.mpr
          ⟨c, hc, (excludeStep_spec (hC c hc) ha0).2.1 x hxc h2⟩
    rw [hstepcov]
    rw [coveredBy_cons]
    constructor
    · rintro ⟨⟨h1, h2⟩, h3⟩
      exact ⟨h1, by simp [h2, h3]⟩
    · rintro ⟨h1, h2⟩
      rw [Bool.or_eq_false_iff] at h2
      exact ⟨⟨h1, h2.1⟩, h2.2⟩



lemma publicRanges_valid : ∀ p ∈ publicRanges, cvalid p := by decide

lemma avoid_valid {ips : List Nat} {subnets : List Cidr}
    (hips : ∀ ip ∈ ips, ip < 2 ^ 32) (hsub : ∀ s ∈ subnets, cvalid s) :
    ∀ a ∈ (ips.map (fun ip => Cidr.mk ip 32) ++ subnets), cvalid a := by
  intro a ha
  rcases List.mem_append.mp ha with h | h
  · rcases List.mem_map.mp h with ⟨ip, hip, hm⟩
    subst hm
    have := hips ip hip
    refine ⟨by show (32 : Nat) ≤ 32; omega, ?_, ?_⟩
    · show ip + 2 ^ (32 - 32) ≤ 2 ^ 32
      omega
    · show (2 : Nat) ^ (32 - 32) ∣ ip
      simp
  · exact hsub a h

/-! ## Claims -/

/-- C1: the claim says every line observed in either pump direction
updates `lastActivity`, so the inactivity detector closes only sessions
with no traffic for more than 900 s. The code never assigns
`last_activity_time` after its initialization (line 293), so the
detector closes a session whose last line arrived only 60 s before the
wake-up: starting at time 0, with a pump line at time 900 and a detector
wake-up at time 960, the session is closed. -/
theorem c1_detector_closes_despite_recent_activity :
    (runLive ⟨0, false⟩
      [LiveEvent.pumpLine 100, LiveEvent.pumpLine 500, LiveEvent.pumpLine 900,
        LiveEvent.inactivityWake 960]).closed = true := by decide

/-- C2 counterexample: with the engine-local map `{Threads: override}`
and the global map `{MultiPV: 3}`, the writes the handshake actually
issues (`uci`, then `setoption name Threads value override`) differ from
the writes the claim prescribes (`uci`, then `setoption name MultiPV
value 3`): the code pushes the sentinel literally and never consults the
global map during the handshake. -/
theorem c2_handshake_push_differs_from_merged_policy :
    handshakeSends [("Threads".data, "override".data)] ≠
      claimedHandshakeSends [("Threads".data, "override".data)]
        [("MultiPV".data, "3".data)] := by decide

/-- C2 (amended): during the mediated handshake the server sends `uci`
followed by `setoption name N value V` for exactly the `(N, V)` pairs of
the engine-local custom-variable map, in order — including pairs whose
value is the sentinel `override`, which is pushed literally; entries of
the global custom-variable map are not pushed during the handshake. -/
theorem c2_handshake_pushes_engine_local_entries_literally
    (ec : List (PyStr × PyStr)) :
    handshakeSends ec = processCommandWrite "uci".data ::
      ec.map (fun e => processCommandWrite (setoptionLine e.1 e.2)) := by
  unfold handshakeSends
  rw [foldl_append_singleton]
  rfl

/-- C3: the claim says that with `enableTrustedSources` unset an
untrusted peer is served. In the code the second, unconditional trust
check (lines 306-320) closes the connection of every untrusted peer
before the engine is spawned, regardless of the flag; with the flag set
the first check (lines 279-291) closes it. Evaluated at the untrusted
peer 203.0.113.1 (3405803777) under an empty trust configuration. -/
theorem c3_untrusted_closed_even_when_flag_disabled :
    clientHandlerAdmission ⟨false, [], [], 60, 3, false⟩ 3405803777 =
        HandlerOutcome.closedAtSecondCheck ∧
      clientHandlerAdmission ⟨true, [], [], 60, 3, false⟩ 3405803777 =
        HandlerOutcome.closedAtFirstCheck := by decide

/-- C4: for a client line whose space-split form matches the grammar
`setoption name N value V` (token `name` at position 1, `value` at
position 3, at least one value token), the command forwarded by
`process_client_commands` is exactly what the option-precedence table of
the spec prescribes: the engine-local value (verbatim forwarding for the
`override` sentinel), else the global value, else the line verbatim. -/
theorem c4_option_rewrite_follows_precedence_table
    (ec gc : List (PyStr × PyStr)) (c n v1 : PyStr) (rest : List PyStr)
    (hsplit : splitChar ' ' c =
      "setoption".data :: "name".data :: n :: "value".data :: v1 :: rest) :
    rewriteCommand ec gc c = specOptionRewrite ec gc n c := by
  have hc : c = pyJoin ' ' ("setoption".data :: "name".data :: n ::
      "value".data :: v1 :: rest) := by
    rw [← hsplit, pyJoin_splitChar]
  have hpre : startsWith "setoption name".data c = true := by
    rw [hc]
    exact startsWith_self_app "setoption name".data
      (' ' :: pyJoin ' ' (n :: "value".data :: v1 :: rest))
  unfold rewriteCommand
  rw [hsplit, hpre]
  simp only [and_self, if_true]
  unfold specOptionRewrite
  rfl

/-- C4 witness: the rewrite of `setoption name Hash value 999` under the
engine-local map `{Hash: 128}` agrees with the spec table (and indeed
yields `setoption name Hash value 128`). -/
theorem c4_option_rewrite_follows_precedence_table_witness :
    rewriteCommand [("Hash".data, "128".data)] []
        "setoption name Hash value 999".data =
      specOptionRewrite [("Hash".data, "128".data)] [] "Hash".data
        "setoption name Hash value 999".data :=
  c4_option_rewrite_follows_precedence_table
    [("Hash".data, "128".data)] [] "setoption name Hash value 999".data
    "Hash".data "999".data [] (by decide)

/-- C5 counterexample: with the single (valid) avoid subnet 0.0.0.0/1,
which strictly contains several public ranges, `address_exclude` raises
ValueError and the code keeps each such range unchanged, so the output
covers the address 1.0.0.0 (16777216) although it lies inside the avoid
set: the output is not equal to public minus avoid as sets. -/
theorem c5_output_exceeds_public_minus_avoid :
    cvalid (Cidr.mk 0 1) ∧
      coveredBy 16777216 (generate_subnets_to_avoid [] [Cidr.mk 0 1]) = true ∧
      (coveredBy 16777216 publicRanges &&
        !coveredBy 16777216 [Cidr.mk 0 1]) = false := by decide

/-- C5 (amended): for well-formed inputs, every element of the planner
output is a valid CIDR and the output always covers at least the public
space minus the avoid set and at most the public space; when the avoid
elements are pairwise disjoint and none strictly contains a public
range, the output covers exactly the public space minus the avoid set. -/
theorem c5_planner_output_characterization (ips : List Nat) (subnets : List Cidr)
    (hips : ∀ ip ∈ ips, ip < 2 ^ 32) (hsub : ∀ s ∈ subnets, cvalid s) :
    (∀ c ∈ generate_subnets_to_avoid ips subnets, cvalid c) ∧
    (∀ x : Nat, coveredBy x publicRanges = true →
      coveredBy x (ips.map (fun ip => Cidr.mk ip 32) ++ subnets) = false →
      coveredBy x (generate_subnets_to_avoid ips subnets) = true) ∧
    (∀ x : Nat, coveredBy x (generate_subnets_to_avoid ips subnets) = true →
      coveredBy x publicRanges = true) ∧
    (allPairsDisjoint (ips.map (fun ip => Cidr.mk ip 32) ++ subnets) = true →
      noStrictSwallow (ips.map (fun ip => Cidr.mk ip 32) ++ subnets) = true →
      ∀ x : Nat, coveredBy x (generate_subnets_to_avoid ips subnets) =
        (coveredBy x publicRanges &&
          !coveredBy x (ips.map (fun ip => Cidr.mk ip 32) ++ subnets))) := by
  have hA := avoid_valid hips hsub
  have hgen : generate_subnets_to_avoid ips subnets =
      listFlatMap (fun p => applyAvoidList
        (ips.map (fun ip => Cidr.mk ip 32) ++ subnets) [p]) publicRanges := rfl
  refine ⟨?_, ?_, ?_, ?_⟩
  · intro c hc
    rw [hgen] at hc
    rcases mem_listFlatMap.mp hc with ⟨p, hp, hcp⟩
    have hone : ∀ c' ∈ [p], cvalid c' := by
      intro c' hc'
      simp only [List.mem_singleton] at hc'
      rw [hc']
      exact publicRanges_valid p hp
    exact applyAvoidList_valid _ [p] hA hone c hcp
  · intro x hpub hav
    rcases List.any_eq_true.mp hpub with ⟨p, hp, hxp⟩
    have hone : ∀ c' ∈ [p], cvalid c' := by
      intro c' hc'
      simp only [List.mem_singleton] at hc'
      rw [hc']
      exact publicRanges_valid p hp
    have hsand := applyAvoidList_sandwich _ [p] x hA hone
    have hcov : coveredBy x [p] = true := by simpa [coveredBy] using hxp
    rw [hgen]
    exact coveredBy_listFlatMap.mpr ⟨p, hp, hsand.2 hcov hav⟩
  · intro x h
    rw [hgen] at h
    rcases coveredBy_listFlatMap.mp h with ⟨p, hp, hcp⟩
    have hone : ∀ c' ∈ [p], cvalid c' := by
      intro c' hc'
      simp only [List.mem_singleton] at hc'
      rw [hc']
      exact publicRanges_valid p hp
    have hsand := applyAvoidList_sandwich _ [p] x hA hone
    have := hsand.1 hcp
    simp only [coveredBy, List.any_cons, List.any_nil, Bool.or_false] at this
    exact List.any_eq_true.mpr ⟨p, hp, this⟩
  · intro hpair hsw x
    apply Bool.eq_iff_iff.mpr
    rw [Bool.and_eq_true, Bool.not_eq_true']
    rw [hgen]
    constructor
    · intro h
      rcases coveredBy_listFlatMap.mp h with ⟨p, hp, hcp⟩
      have hone : ∀ c' ∈ [p], cvalid c' := by
        intro c' hc'
        simp only [List.mem_singleton] at hc'
        rw [hc']
        exact publicRanges_valid p hp
      have hns : noSwallowP (ips.map (fun ip => Cidr.mk ip 32) ++ subnets) [p] := by
        intro a ha c hc hbad
        simp only [List.mem_singleton] at hc
        rw [hc] at hbad
        have h2 : (!subB p a || decide (p = a)) = true :=
          List.all_eq_true.mp (List.all_eq_true.mp hsw a ha) p hp
        rcases hbad with ⟨hb1, hb2⟩
        simp only [Bool.or_eq_true, Bool.not_eq_true', decide_eq_true_eq] at h2
        rcases h2 with h2 | h2
        · rw [hb1] at h2; cases h2
        · exact hb2 h2
      have hex := applyAvoidList_exact _ [p] x hA hone hpair hns
      rcases hex.mp hcp with ⟨h1, h2⟩
      simp only [coveredBy, List.any_cons, List.any_nil, Bool.or_false] at h1
      exact ⟨List.any_eq_true.mpr ⟨p, hp, h1⟩, h2⟩
    · rintro ⟨h1, h2⟩
      rcases List.any_eq_true.mp h1 with ⟨p, hp, hxp⟩
      have hone : ∀ c' ∈ [p], cvalid c' := by
        intro c' hc'
        simp only [List.mem_singleton] at hc'
        rw [hc']
        exact publicRanges_valid p hp
      have hsand := applyAvoidList_sandwich _ [p] x hA hone
      have hcov : coveredBy x [p] = true := by simpa [coveredBy] using hxp
      exact coveredBy_listFlatMap.mpr ⟨p, hp, hsand.2 hcov h2⟩

/-- C5 witness: with the single avoid address 10.0.0.5 (which lies in no
public range), the public address 1.0.0.0 is covered by the planner
output. -/
theorem c5_planner_output_characterization_witness :
    coveredBy 16777216 (generate_subnets_to_avoid [167772165] []) = true :=
  (c5_planner_output_characterization [167772165] [] (by decide)
    (by decide)).2.1 16777216 (by decide) (by decide)

/-- C6 counterexample: with period 60 and untrusted peer 7 checked at
times 0, 50 and 110, the mutation at time 110 keeps the entry (its last
timestamp 50 satisfies 110 - 50 ≤ 60) and leaves the recorded timestamp
0 in the map, although 110 - 0 > 60: not every recorded timestamp is
within the period at the moment of mutation. -/
theorem c6_stale_timestamp_survives_mutation :
    lookupTs
        (check_connection_attempts ⟨false, [], [], 60, 10, false⟩
          (check_connection_attempts ⟨false, [], [], 60, 10, false⟩
            (check_connection_attempts ⟨false, [], [], 60, 10, false⟩
              [] 7 0).attempts 7 50).attempts 7 110).attempts 7 =
      some [0, 50, 110] ∧ 110 - (0 : Nat) > 60 := by decide

/-- C6 (amended): at every mutation by `check_connection_attempts` for an
untrusted peer, the most recent timestamp of every retained entry
satisfies `now - ts ≤ connectionAttemptPeriod` (expired entries are
purged by their last timestamp before the insert); older timestamps
inside an entry may be arbitrarily stale. -/
theorem c6_last_timestamp_fresh_at_mutation (cfg : Config) (m : AttemptMap)
    (ip now : Nat) (hns : isTrusted cfg ip = false) :
    ∀ e ∈ (check_connection_attempts cfg m ip now).attempts,
      now - lastTs e.2 ≤ cfg.connectionAttemptPeriod := by
  intro e he
  unfold check_connection_attempts at he
  rw [hns] at he
  simp only [Bool.false_eq_true, if_false] at he
  have hmain : ∀ e', e' ∈ mapInsert (purgeExpired now cfg.connectionAttemptPeriod m) ip
      ((lookupTs (purgeExpired now cfg.connectionAttemptPeriod m) ip).getD [] ++ [now]) →
      now - lastTs e'.2 ≤ cfg.connectionAttemptPeriod := by
    intro e' he'
    rcases mem_mapInsert _ _ _ e' he' with h | h
    · rw [h]
      simp [lastTs_concat]
    · have := (List.mem_filter.mp h).2
      exact of_decide_eq_true this
  split at he
  · exact hmain e ((List.mem_filter.mp he).1)
  · exact hmain e he

/-- C6 witness: checking peer 7 at time 100 against the map holding one
stale entry for peer 5 purges that entry and records `[100]` for peer 7;
the conclusion instantiated at the surviving entry. -/
theorem c6_last_timestamp_fresh_at_mutation_witness :
    100 - lastTs ([100] : List Nat) ≤
      (⟨false, [], [], 60, 10, false⟩ : Config).connectionAttemptPeriod :=
  c6_last_timestamp_fresh_at_mutation ⟨false, [], [], 60, 10, false⟩
    [(5, [0])] 7 100 (by decide) (7, [100]) (by decide)

/-- C7: for an untrusted peer absent from the attempts map, after
`maxConnectionAttempts` checks all within the attempt period before a
final check at time `t`, the final check classifies the peer as blocked,
removes it from the map, and requests a firewall block exactly when
`enableFirewallIpBlocking` is set; and when successive checks are spaced
strictly more than the period apart, the recorded attempt count for the
peer never exceeds 1 after any prefix of the checks. -/
theorem c7_sliding_window_blocking :
    (∀ (cfg : Config) (ip : Nat) (m : AttemptMap) (prevTimes : List Nat) (t : Nat),
      isTrusted cfg ip = false →
      lookupTs m ip = none →
      prevTimes.length = cfg.maxConnectionAttempts →
      (∀ u ∈ prevTimes, u ≤ t ∧ t - u ≤ cfg.connectionAttemptPeriod) →
      (check_connection_attempts cfg (runChecksMap cfg ip m prevTimes) ip t).blocked
          = true ∧
        lookupTs (check_connection_attempts cfg
          (runChecksMap cfg ip m prevTimes) ip t).attempts ip = none ∧
        (check_connection_attempts cfg
            (runChecksMap cfg ip m prevTimes) ip t).firewallRequest =
          (if cfg.enableFirewallIpBlocking then some ip else none)) ∧
    (∀ (cfg : Config) (ip : Nat) (m : AttemptMap) (times : List Nat),
      isTrusted cfg ip = false →
      lookupTs m ip = none →
      adjAllB (fun a b => decide (cfg.connectionAttemptPeriod < b - a)) times = true →
      ∀ j, ((lookupTs (runChecksMap cfg ip m (times.take j)) ip).getD []).length ≤ 1) := by
  constructor
  · intro cfg ip m prevTimes t hns h0 hlen hwin
    exact partA_main cfg ip m prevTimes t hns h0 hlen hwin
  · intro cfg ip m times hns h0 hadj j
    exact partB_aux cfg ip hns times m []
      (fun e he hk => absurd hk (lookupTs_none_no_key h0 e he))
      (by simp)
      (by intro t0 ht0 u hu; simp at hu)
      hadj j

/-- C7 witness: with period 60 and threshold 3, peer 7 checked at times
0, 1, 2 and finally 3 is blocked, removed, and a firewall request for it
is issued; and with checks at times 0 and 100 (spaced more than 60
apart) the recorded count after both checks is at most 1. -/
theorem c7_sliding_window_blocking_witness :
    ((check_connection_attempts ⟨false, [], [], 60, 3, true⟩
        (runChecksMap ⟨false, [], [], 60, 3, true⟩ 7 [] [0, 1, 2]) 7 3).blocked
        = true ∧
      lookupTs (check_connection_attempts ⟨false, [], [], 60, 3, true⟩
        (runChecksMap ⟨false, [], [], 60, 3, true⟩ 7 [] [0, 1, 2]) 7 3).attempts 7
        = none ∧
      (check_connection_attempts ⟨false, [], [], 60, 3, true⟩
        (runChecksMap ⟨false, [], [], 60, 3, true⟩ 7 [] [0, 1, 2]) 7 3).firewallRequest
        = some 7) ∧
    ((lookupTs (runChecksMap ⟨false, [], [], 60, 3, true⟩ 7 []
        (List.take 2 [0, 100])) 7).getD []).length ≤ 1 := by
  constructor
  · exact c7_sliding_window_blocking.1 ⟨false, [], [], 60, 3, true⟩ 7 [] [0, 1, 2] 3
      (by decide) rfl rfl (by decide)
  · exact c7_sliding_window_blocking.2 ⟨false, [], [], 60, 3, true⟩ 7 [] [0, 100]
      (by decide) rfl (by decide) 2

/-- C8 counterexample: the client line `stop\r\n` is forwarded as
`stop\n`, not as the unchanged line content `stop\r` followed by a
newline: the carriage return adjacent to the line end is stripped by
`client_data = data.decode().strip()` and `command.strip()`. -/
theorem c8_line_with_cr_not_forwarded_verbatim :
    handleClientData [] [] "stop\r\n".data = ["stop\n".data] ∧
      "stop\n".data ≠ "stop\r".data ++ ['\n'] := by decide

/-- C8 (amended): a non-empty client line with no leading or trailing
whitespace and no embedded newline that does not match the setoption
grammar is forwarded unchanged followed by a newline; interior carriage
returns are passed through, while leading and trailing whitespace
(including a carriage return before the line terminator) is stripped
before forwarding. -/
theorem c8_clean_nonsetoption_line_forwarded_verbatim
    (ec gc : List (PyStr × PyStr)) (c : PyStr) (hne : c ≠ [])
    (h1 : headNotWs c = true) (h2 : headNotWs c.reverse = true)
    (hnl : ∀ ch ∈ c, ch ≠ '\n') (hmatch : isSetoptionMatch c = false) :
    handleClientData ec gc (c ++ ['\n']) = [c ++ ['\n']] := by
  unfold handleClientData
  rw [pyStrip_append_nl c h1 h2]
  dsimp only
  rw [splitChar_no_sep '\n' c hnl]
  simp only [listFlatMap, List.append_nil]
  rw [pyStrip_clean c h1 h2]
  rw [if_neg hne]
  rw [rewriteCommand_of_not_match ec gc c hmatch]
  rfl

/-- C8 witness: the line `st\rop` (an interior carriage return) is
forwarded unchanged with its newline appended. -/
theorem c8_clean_nonsetoption_line_forwarded_verbatim_witness :
    handleClientData [] [] ("st\rop".data ++ ['\n']) = ["st\rop".data ++ ['\n']] :=
  c8_clean_nonsetoption_line_forwarded_verbatim [] [] "st\rop".data
    (by decide) (by decide) (by decide) (by decide) (by decide)

/-- C9 counterexample: when the engine closes stdout before emitting any
`uciok` line (here it emits nothing), the handshake relay terminates on
EOF and the pump starts anyway: the client line `go` is written to the
engine stdin although no engine line containing `uciok` was ever
emitted. -/
theorem c9_client_bytes_before_uciok_on_engine_eof :
    okTrace (sessionTrace [] [] [] ["go".data] []) = false := by decide

/-- C9 (amended): provided the engine emits some stdout line containing
`uciok`, no client-forwarded byte is written to the engine stdin before
that line: the client-to-engine pump starts only after the handshake
relay completes, and the relay consumes engine output up to and
including the first `uciok` line. -/
theorem c9_no_client_bytes_before_uciok_when_engine_says_uciok
    (ec gc : List (PyStr × PyStr)) (engineLines clientLines : List PyStr)
    (sched : List Bool) (h : engineLines.any hasUciok = true) :
    okTrace (sessionTrace ec gc engineLines clientLines sched) = true := by
  unfold sessionTrace
  rw [List.append_assoc, okTrace_serverWrites]
  exact okTrace_relay engineLines _ h

/-- C9 witness: a session in which the engine answers `uciok` and the
client then sends `go` has a trace with no client write before the
`uciok` line. -/
theorem c9_no_client_bytes_before_uciok_when_engine_says_uciok_witness :
    okTrace (sessionTrace [] [] ["uciok".data] ["go".data] []) = true :=
  c9_no_client_bytes_before_uciok_when_engine_says_uciok [] []
    ["uciok".data] ["go".data] [] (by decide)

/-- C10: a client line that splits into exactly the four tokens
`setoption`, `name`, N, `value` (an empty value) is never rewritten: the
rewrite path requires at least five space-separated parts, so the line
is forwarded verbatim for every engine-local and global map. -/
theorem c10_short_setoption_forwarded_verbatim
    (ec gc : List (PyStr × PyStr)) (c n : PyStr)
    (hsplit : splitChar ' ' c =
      ["setoption".data, "name".data, n, "value".data]) :
    rewriteCommand ec gc c = c := by
  unfold rewriteCommand
  rw [hsplit]
  split <;> rfl

/-- C10 witness: `setoption name Hash value` is forwarded verbatim even
though `Hash` is present in both the engine-local and the global map. -/
theorem c10_short_setoption_forwarded_verbatim_witness :
    rewriteCommand [("Hash".data, "128".data)] [("Hash".data, "64".data)]
        "setoption name Hash value".data =
      "setoption name Hash value".data :=
  c10_short_setoption_forwarded_verbatim
    [("Hash".data, "128".data)] [("Hash".data, "64".data)]
    "setoption name Hash value".data "Hash".data (by decide)

end ChessUCI
